import Mathlib

/-!
Verification of the rust-phf runtime read path.

The repository holds two generations of the same library:

* `src/src/phf.rs` — keys are static string slices, the table stores a SipHash
  seed pair `(k1, k2)`, displacement arithmetic is on `uint` (modelled as a
  64-bit machine word); embedded below in namespace `Old`.
* `src/phf/src/lib.rs` — generic keys hashed through the `PhfHash` trait,
  a single `u64` seed, `u32` displacement arithmetic; embedded below in
  namespace `New`.

Machine integers are modelled as `Nat` with explicit reductions `% 2 ^ w`
at the operations where wrapping matters.  Rust panics reachable on the
lookup path (remainder by zero, slice index out of bounds, and
`Option::expect` on `None` inside `Index::index`) are modelled as
`Except.error` outcomes of `PhfError`.

The SipHash digest itself is computed by the Rust standard library
(`SipHasher::new_with_keys(k1, k2).hash(&s)`), which is not part of this
repository; the embedding is therefore parametric in a digest function
`sip : String → Nat → Nat → Nat` (argument order: string, k1, k2).
Likewise the `PhfHash::phf_hash` implementations of the generic variant live in
`shared/mod.rs`, which is not under `src/`; the generic read path is
parametric in the triple function, and `shared::displace` is modelled from
the spec (see `New.displace`).

Layout: all definitions first, then all theorems.
-/

/-- Failure outcomes of the Rust read path: `divByZero` is the panic raised
by `%` with a zero divisor, `indexOutOfBounds` the panic of a slice index
out of range, and `invalidKey` the `expect("invalid key")` panic of the
`Index` trait implementations. -/
inductive PhfError where
  | divByZero
  | indexOutOfBounds
  | invalidKey
deriving DecidableEq, Repr

instance {ε α : Type _} [DecidableEq ε] [DecidableEq α] :
    DecidableEq (Except ε α)
  | .error a, .error b =>
    if h : a = b then .isTrue (by rw [h]) else .isFalse (by simp [h])
  | .error _, .ok _ => .isFalse (by simp)
  | .ok _, .error _ => .isFalse (by simp)
  | .ok a, .ok b =>
    if h : a = b then .isTrue (by rw [h]) else .isFalse (by simp [h])

/-- Short-circuiting `Iterator::any` over a fallible predicate, as in
`self.iter().any(|value| other.contains(&value))`: the first `true` wins,
a panic (error) in a probe propagates. -/
def anyExc {ε α : Type _} (f : α → Except ε Bool) : List α → Except ε Bool
  | [] => .ok false
  | a :: as =>
    match f a with
    | .error e => .error e
    | .ok true => .ok true
    | .ok false => anyExc f as

/-- Short-circuiting `Iterator::all` over a fallible predicate. -/
def allExc {ε α : Type _} (f : α → Except ε Bool) : List α → Except ε Bool
  | [] => .ok true
  | a :: as =>
    match f a with
    | .error e => .error e
    | .ok false => .ok false
    | .ok true => allExc f as

/-- Drain an iterator: repeatedly call `next` until it yields `none`,
collecting the produced elements.  `meas` with `hdec` bounds the number of
steps (every embedded iterator shrinks its underlying slice). -/
def drainIter {σ β : Type _} (next : σ → Option (β × σ)) (meas : σ → Nat)
    (hdec : ∀ s b s', next s = some (b, s') → meas s' < meas s)
    (s : σ) : List β :=
  match h : next s with
  | none => []
  | some (b, s') => b :: drainIter next meas hdec s'
termination_by meas s
decreasing_by exact hdec _ _ _ h

namespace Old

/-- Source constant `LOG_MAX_SIZE` of `src/src/phf.rs`. -/
def LOG_MAX_SIZE : Nat := 21

/-- Source constant `MAX_SIZE = 1 << LOG_MAX_SIZE` of `src/src/phf.rs`. -/
def MAX_SIZE : Nat := 1 <<< LOG_MAX_SIZE

/-- Embedding of `hash(s, k1, k2)` of `src/src/phf.rs`: split the 64-bit
SipHash digest into three windows using the mask `MAX_SIZE - 1`.  The
digest function `sip` models the external `SipHasher` of the Rust standard
library (not part of this repository). -/
def hash (sip : String → Nat → Nat → Nat) (s : String) (k1 k2 : Nat) :
    Nat × Nat × Nat :=
  let h := sip s k1 k2
  let mask := MAX_SIZE - 1
  (h &&& mask, (h >>> LOG_MAX_SIZE) &&& mask, (h >>> (2 * LOG_MAX_SIZE)) &&& mask)

/-- Embedding of `displace(f1, f2, d1, d2) = d2 + f1 * d1 + f2` of
`src/src/phf.rs`, each `uint` operation wrapping at the 64-bit machine
word. -/
def displace (f1 f2 d1 d2 : Nat) : Nat :=
  ((d2 + f1 * d1 % 2 ^ 64) % 2 ^ 64 + f2) % 2 ^ 64

/-- Embedding of `PhfMap<T>` of `src/src/phf.rs`. -/
structure PhfMap (V : Type) where
  k1 : Nat
  k2 : Nat
  disps : List (Nat × Nat)
  entries : List (String × V)

variable {V : Type}

/-- Embedding of `PhfMap::find_entry`: hash the key, pick the displacement
pair at `g % disps.len()`, pick the candidate entry at
`displace(f1, f2, d1, d2) % entries.len()`, and compare keys.  A zero
`disps` or `entries` length makes the corresponding `%` panic in Rust,
modelled as `.error .divByZero`. -/
def PhfMap.find_entry (sip : String → Nat → Nat → Nat) (m : PhfMap V)
    (key : String) : Except PhfError (Option (String × V)) :=
  let t := hash sip key m.k1 m.k2
  if hB : m.disps.length = 0 then .error .divByZero else
  let dd := m.disps.get ⟨t.1 % m.disps.length, Nat.mod_lt _ (Nat.pos_of_ne_zero hB)⟩
  if hN : m.entries.length = 0 then .error .divByZero else
  let e := m.entries.get ⟨displace t.2.1 t.2.2 dd.1 dd.2 % m.entries.length,
                          Nat.mod_lt _ (Nat.pos_of_ne_zero hN)⟩
  if e.1 = key then .ok (some e) else .ok none

/-- Embedding of the `Map::find` implementation for `PhfMap`. -/
def PhfMap.find (sip : String → Nat → Nat → Nat) (m : PhfMap V)
    (key : String) : Except PhfError (Option V) :=
  (m.find_entry sip key).map (fun o => o.map Prod.snd)

/-- Embedding of `PhfMap::find_key`. -/
def PhfMap.find_key (sip : String → Nat → Nat → Nat) (m : PhfMap V)
    (key : String) : Except PhfError (Option String) :=
  (m.find_entry sip key).map (fun o => o.map Prod.fst)

/-- Embedding of the default `contains_key` of the `Map` trait, which is
`self.find(key).is_some()`. -/
def PhfMap.contains_key (sip : String → Nat → Nat → Nat) (m : PhfMap V)
    (key : String) : Except PhfError Bool :=
  (m.find sip key).map Option.isSome

/-- The slot the read path computes for a key: `none` when the slot
computation itself panics (zero-length `disps` or `entries`).  This is the
left-hand side of the perfect-hash placement invariant. -/
def PhfMap.slotOf (sip : String → Nat → Nat → Nat) (m : PhfMap V)
    (key : String) : Option Nat :=
  let t := hash sip key m.k1 m.k2
  if hB : m.disps.length = 0 then none else
  let dd := m.disps.get ⟨t.1 % m.disps.length, Nat.mod_lt _ (Nat.pos_of_ne_zero hB)⟩
  if m.entries.length = 0 then none else
  some (displace t.2.1 t.2.2 dd.1 dd.2 % m.entries.length)

/-- The perfect-hash placement invariant for `PhfMap`: the read-path slot
of every stored key is the index of its own entry. -/
def PhfMap.Placed (sip : String → Nat → Nat → Nat) (m : PhfMap V) : Prop :=
  ∀ i : Fin m.entries.length, m.slotOf sip (m.entries.get i).1 = some i.val

instance (sip : String → Nat → Nat → Nat) (m : PhfMap V) :
    Decidable (m.Placed sip) :=
  inferInstanceAs (Decidable (∀ _, _))

/-- Embedding of `PhfOrderedMap<T>` of `src/src/phf.rs`: the `idxs` array
maps a computed slot to a position in `entries`, which stays in definition
order. -/
structure PhfOrderedMap (V : Type) where
  k1 : Nat
  k2 : Nat
  disps : List (Nat × Nat)
  idxs : List Nat
  entries : List (String × V)

/-- Embedding of `PhfOrderedMap::find_entry`: like the plain map, but the
computed slot is taken `mod idxs.len()` and resolved through `idxs` before
indexing `entries`.  An `idxs` value outside `entries` makes the Rust
slice index panic, modelled as `.error .indexOutOfBounds`. -/
def PhfOrderedMap.find_entry (sip : String → Nat → Nat → Nat)
    (m : PhfOrderedMap V) (key : String) :
    Except PhfError (Option (String × V)) :=
  let t := hash sip key m.k1 m.k2
  if hB : m.disps.length = 0 then .error .divByZero else
  let dd := m.disps.get ⟨t.1 % m.disps.length, Nat.mod_lt _ (Nat.pos_of_ne_zero hB)⟩
  if hI : m.idxs.length = 0 then .error .divByZero else
  let idx := m.idxs.get ⟨displace t.2.1 t.2.2 dd.1 dd.2 % m.idxs.length,
                         Nat.mod_lt _ (Nat.pos_of_ne_zero hI)⟩
  match m.entries[idx]? with
  | none => .error .indexOutOfBounds
  | some e => if e.1 = key then .ok (some e) else .ok none

/-- Embedding of the `Map::find` implementation for `PhfOrderedMap`. -/
def PhfOrderedMap.find (sip : String → Nat → Nat → Nat) (m : PhfOrderedMap V)
    (key : String) : Except PhfError (Option V) :=
  (m.find_entry sip key).map (fun o => o.map Prod.snd)

/-- Embedding of `PhfOrderedMap::find_key`. -/
def PhfOrderedMap.find_key (sip : String → Nat → Nat → Nat)
    (m : PhfOrderedMap V) (key : String) : Except PhfError (Option String) :=
  (m.find_entry sip key).map (fun o => o.map Prod.fst)

/-- Embedding of the default `contains_key` of the `Map` trait for
`PhfOrderedMap`. -/
def PhfOrderedMap.contains_key (sip : String → Nat → Nat → Nat)
    (m : PhfOrderedMap V) (key : String) : Except PhfError Bool :=
  (m.find sip key).map Option.isSome

/-- The entry index the ordered read path resolves for a key, through the
`idxs` indirection; `none` when the slot computation panics. -/
def PhfOrderedMap.slotOf (sip : String → Nat → Nat → Nat)
    (m : PhfOrderedMap V) (key : String) : Option Nat :=
  let t := hash sip key m.k1 m.k2
  if hB : m.disps.length = 0 then none else
  let dd := m.disps.get ⟨t.1 % m.disps.length, Nat.mod_lt _ (Nat.pos_of_ne_zero hB)⟩
  if hI : m.idxs.length = 0 then none else
  some (m.idxs.get ⟨displace t.2.1 t.2.2 dd.1 dd.2 % m.idxs.length,
                    Nat.mod_lt _ (Nat.pos_of_ne_zero hI)⟩)

/-- The perfect-hash placement invariant for `PhfOrderedMap`: the slot of
every stored key, resolved through `idxs`, is the index of its own entry
in the (definition-ordered) `entries` array. -/
def PhfOrderedMap.Placed (sip : String → Nat → Nat → Nat)
    (m : PhfOrderedMap V) : Prop :=
  ∀ i : Fin m.entries.length, m.slotOf sip (m.entries.get i).1 = some i.val

instance (sip : String → Nat → Nat → Nat) (m : PhfOrderedMap V) :
    Decidable (m.Placed sip) :=
  inferInstanceAs (Decidable (∀ _, _))

/-- Embedding of `PhfSet` of `src/src/phf.rs`: a `PhfMap<()>`. -/
structure PhfSet where
  map : PhfMap Unit

/-- The sequence of keys `PhfSet::iter` walks: the stored keys in the
fixed order of the `entries` array (established by the iterator drain
theorems below). -/
def PhfSet.iterKeys (s : PhfSet) : List String :=
  s.map.entries.map Prod.fst

/-- Embedding of the `Set::contains` implementation for `PhfSet`, which is
`self.map.contains_key(value)`. -/
def PhfSet.contains (sip : String → Nat → Nat → Nat) (s : PhfSet)
    (value : String) : Except PhfError Bool :=
  s.map.contains_key sip value

/-- Embedding of `Set::is_disjoint` for `PhfSet`:
`!self.iter().any(|value| other.contains(&value))`. -/
def PhfSet.is_disjoint (sip : String → Nat → Nat → Nat) (s other : PhfSet) :
    Except PhfError Bool :=
  Except.map not (anyExc (fun value => other.contains sip value) s.iterKeys)

/-- Embedding of `Set::is_subset` for `PhfSet`:
`self.iter().all(|value| other.contains(&value))`. -/
def PhfSet.is_subset (sip : String → Nat → Nat → Nat) (s other : PhfSet) :
    Except PhfError Bool :=
  allExc (fun value => other.contains sip value) s.iterKeys

/-- Embedding of `PhfOrderedSet` of `src/src/phf.rs`: a
`PhfOrderedMap<()>`. -/
structure PhfOrderedSet where
  map : PhfOrderedMap Unit

/-- The sequence of keys `PhfOrderedSet::iter` walks (definition order). -/
def PhfOrderedSet.iterKeys (s : PhfOrderedSet) : List String :=
  s.map.entries.map Prod.fst

/-- Embedding of the `Set::contains` implementation for `PhfOrderedSet`. -/
def PhfOrderedSet.contains (sip : String → Nat → Nat → Nat)
    (s : PhfOrderedSet) (value : String) : Except PhfError Bool :=
  s.map.contains_key sip value

/-- Embedding of `Set::is_disjoint` for `PhfOrderedSet`. -/
def PhfOrderedSet.is_disjoint (sip : String → Nat → Nat → Nat)
    (s other : PhfOrderedSet) : Except PhfError Bool :=
  Except.map not (anyExc (fun value => other.contains sip value) s.iterKeys)

/-- Embedding of `Set::is_subset` for `PhfOrderedSet`. -/
def PhfOrderedSet.is_subset (sip : String → Nat → Nat → Nat)
    (s other : PhfOrderedSet) : Except PhfError Bool :=
  allExc (fun value => other.contains sip value) s.iterKeys

/-- Embedding of the iterator struct `PhfMapEntries`: a position in
the `entries` slice, here the remaining suffix. -/
structure PhfMapEntries (V : Type) where
  iter : List (String × V)

/-- Embedding of `Iterator::next` for `PhfMapEntries`. -/
def PhfMapEntries.next : PhfMapEntries V → Option ((String × V) × PhfMapEntries V)
  | ⟨[]⟩ => none
  | ⟨e :: rest⟩ => some (e, ⟨rest⟩)

/-- Embedding of the iterator struct `PhfMapKeys`, delegating to
`PhfMapEntries`. -/
structure PhfMapKeys (V : Type) where
  iter : PhfMapEntries V

/-- Embedding of `Iterator::next` for `PhfMapKeys`:
`self.iter.next().map(|(key, _)| key)`. -/
def PhfMapKeys.next (it : PhfMapKeys V) : Option (String × PhfMapKeys V) :=
  it.iter.next.map (fun p => (p.1.1, ⟨p.2⟩))

/-- Embedding of the iterator struct `PhfMapValues`. -/
structure PhfMapValues (V : Type) where
  iter : PhfMapEntries V

/-- Embedding of `Iterator::next` for `PhfMapValues`:
`self.iter.next().map(|(_, value)| value)`. -/
def PhfMapValues.next (it : PhfMapValues V) : Option (V × PhfMapValues V) :=
  it.iter.next.map (fun p => (p.1.2, ⟨p.2⟩))

/-- Embedding of the iterator struct `PhfSetValues`, delegating to
`PhfMapKeys`. -/
structure PhfSetValues where
  iter : PhfMapKeys Unit

/-- Embedding of `Iterator::next` for `PhfSetValues`. -/
def PhfSetValues.next (it : PhfSetValues) : Option (String × PhfSetValues) :=
  it.iter.next.map (fun p => (p.1, ⟨p.2⟩))

/-- Embedding of `PhfMap::entries()` (called `entriesIter` here because the
Lean structure field is already named `entries`). -/
def PhfMap.entriesIter (m : PhfMap V) : PhfMapEntries V :=
  ⟨m.entries⟩

/-- Embedding of `PhfMap::keys()`. -/
def PhfMap.keysIter (m : PhfMap V) : PhfMapKeys V :=
  ⟨m.entriesIter⟩

/-- Embedding of `PhfMap::values()`. -/
def PhfMap.valuesIter (m : PhfMap V) : PhfMapValues V :=
  ⟨m.entriesIter⟩

/-- Embedding of `PhfSet::iter()`. -/
def PhfSet.iter (s : PhfSet) : PhfSetValues :=
  ⟨s.map.keysIter⟩

/-- Embedding of the iterator struct `PhfOrderedMapEntries`. -/
structure PhfOrderedMapEntries (V : Type) where
  iter : List (String × V)

/-- Embedding of `Iterator::next` for `PhfOrderedMapEntries`. -/
def PhfOrderedMapEntries.next :
    PhfOrderedMapEntries V → Option ((String × V) × PhfOrderedMapEntries V)
  | ⟨[]⟩ => none
  | ⟨e :: rest⟩ => some (e, ⟨rest⟩)

/-- Embedding of the iterator struct `PhfOrderedMapKeys`. -/
structure PhfOrderedMapKeys (V : Type) where
  iter : PhfOrderedMapEntries V

/-- Embedding of `Iterator::next` for `PhfOrderedMapKeys`. -/
def PhfOrderedMapKeys.next (it : PhfOrderedMapKeys V) :
    Option (String × PhfOrderedMapKeys V) :=
  it.iter.next.map (fun p => (p.1.1, ⟨p.2⟩))

/-- Embedding of the iterator struct `PhfOrderedMapValues`. -/
structure PhfOrderedMapValues (V : Type) where
  iter : PhfOrderedMapEntries V

/-- Embedding of `Iterator::next` for `PhfOrderedMapValues`. -/
def PhfOrderedMapValues.next (it : PhfOrderedMapValues V) :
    Option (V × PhfOrderedMapValues V) :=
  it.iter.next.map (fun p => (p.1.2, ⟨p.2⟩))

/-- Embedding of the iterator struct `PhfOrderedSetValues`. -/
structure PhfOrderedSetValues where
  iter : PhfOrderedMapKeys Unit

/-- Embedding of `Iterator::next` for `PhfOrderedSetValues`. -/
def PhfOrderedSetValues.next (it : PhfOrderedSetValues) :
    Option (String × PhfOrderedSetValues) :=
  it.iter.next.map (fun p => (p.1, ⟨p.2⟩))

/-- Embedding of `PhfOrderedMap::entries()`. -/
def PhfOrderedMap.entriesIter (m : PhfOrderedMap V) : PhfOrderedMapEntries V :=
  ⟨m.entries⟩

/-- Embedding of `PhfOrderedMap::keys()`. -/
def PhfOrderedMap.keysIter (m : PhfOrderedMap V) : PhfOrderedMapKeys V :=
  ⟨m.entriesIter⟩

/-- Embedding of `PhfOrderedMap::values()`. -/
def PhfOrderedMap.valuesIter (m : PhfOrderedMap V) : PhfOrderedMapValues V :=
  ⟨m.entriesIter⟩

/-- Embedding of `PhfOrderedSet::iter()`. -/
def PhfOrderedSet.iter (s : PhfOrderedSet) : PhfOrderedSetValues :=
  ⟨s.map.keysIter⟩

/-- Drain `PhfMapEntries` by repeated `next`. -/
def PhfMapEntries.toList (it : PhfMapEntries V) : List (String × V) :=
  drainIter PhfMapEntries.next (fun s => s.iter.length)
    (by
      rintro ⟨l⟩ b s' h
      cases l with
      | nil => simp [PhfMapEntries.next] at h
      | cons e rest =>
        simp [PhfMapEntries.next] at h
        obtain ⟨h1, h2⟩ := h
        simp [← h2]) it

/-- Drain `PhfMapKeys` by repeated `next`. -/
def PhfMapKeys.toList (it : PhfMapKeys V) : List String :=
  drainIter PhfMapKeys.next (fun s => s.iter.iter.length)
    (by
      rintro ⟨⟨l⟩⟩ b s' h
      cases l with
      | nil => simp [PhfMapKeys.next, PhfMapEntries.next] at h
      | cons e rest =>
        simp [PhfMapKeys.next, PhfMapEntries.next] at h
        obtain ⟨h1, h2⟩ := h
        simp [← h2]) it

/-- Drain `PhfMapValues` by repeated `next`. -/
def PhfMapValues.toList (it : PhfMapValues V) : List V :=
  drainIter PhfMapValues.next (fun s => s.iter.iter.length)
    (by
      rintro ⟨⟨l⟩⟩ b s' h
      cases l with
      | nil => simp [PhfMapValues.next, PhfMapEntries.next] at h
      | cons e rest =>
        simp [PhfMapValues.next, PhfMapEntries.next] at h
        obtain ⟨h1, h2⟩ := h
        simp [← h2]) it

/-- Drain `PhfSetValues` by repeated `next`. -/
def PhfSetValues.toList (it : PhfSetValues) : List String :=
  drainIter PhfSetValues.next (fun s => s.iter.iter.iter.length)
    (by
      rintro ⟨⟨⟨l⟩⟩⟩ b s' h
      cases l with
      | nil => simp [PhfSetValues.next, PhfMapKeys.next, PhfMapEntries.next] at h
      | cons e rest =>
        simp [PhfSetValues.next, PhfMapKeys.next, PhfMapEntries.next] at h
        obtain ⟨h1, h2⟩ := h
        simp [← h2]) it

/-- Drain `PhfOrderedMapEntries` by repeated `next`. -/
def PhfOrderedMapEntries.toList (it : PhfOrderedMapEntries V) :
    List (String × V) :=
  drainIter PhfOrderedMapEntries.next (fun s => s.iter.length)
    (by
      rintro ⟨l⟩ b s' h
      cases l with
      | nil => simp [PhfOrderedMapEntries.next] at h
      | cons e rest =>
        simp [PhfOrderedMapEntries.next] at h
        obtain ⟨h1, h2⟩ := h
        simp [← h2]) it

/-- Drain `PhfOrderedMapKeys` by repeated `next`. -/
def PhfOrderedMapKeys.toList (it : PhfOrderedMapKeys V) : List String :=
  drainIter PhfOrderedMapKeys.next (fun s => s.iter.iter.length)
    (by
      rintro ⟨⟨l⟩⟩ b s' h
      cases l with
      | nil => simp [PhfOrderedMapKeys.next, PhfOrderedMapEntries.next] at h
      | cons e rest =>
        simp [PhfOrderedMapKeys.next, PhfOrderedMapEntries.next] at h
        obtain ⟨h1, h2⟩ := h
        simp [← h2]) it

/-- Drain `PhfOrderedMapValues` by repeated `next`. -/
def PhfOrderedMapValues.toList (it : PhfOrderedMapValues V) : List V :=
  drainIter PhfOrderedMapValues.next (fun s => s.iter.iter.length)
    (by
      rintro ⟨⟨l⟩⟩ b s' h
      cases l with
      | nil => simp [PhfOrderedMapValues.next, PhfOrderedMapEntries.next] at h
      | cons e rest =>
        simp [PhfOrderedMapValues.next, PhfOrderedMapEntries.next] at h
        obtain ⟨h1, h2⟩ := h
        simp [← h2]) it

/-- Drain `PhfOrderedSetValues` by repeated `next`. -/
def PhfOrderedSetValues.toList (it : PhfOrderedSetValues) : List String :=
  drainIter PhfOrderedSetValues.next (fun s => s.iter.iter.iter.length)
    (by
      rintro ⟨⟨⟨l⟩⟩⟩ b s' h
      cases l with
      | nil => simp [PhfOrderedSetValues.next, PhfOrderedMapKeys.next, PhfOrderedMapEntries.next] at h
      | cons e rest =>
        simp [PhfOrderedSetValues.next, PhfOrderedMapKeys.next, PhfOrderedMapEntries.next] at h
        obtain ⟨h1, h2⟩ := h
        simp [← h2]) it

end Old

namespace New

variable {K V T : Type}

/-- Modelled from the spec: `shared::displace` (file `shared/mod.rs` is not
under `src/`; `src/phf/src/lib.rs` only calls it on `u32` arguments):
`displace(f1, f2, d1, d2) = d2 + f1*d1 + f2`, each operation wrapping at
32 bits. -/
def displace (f1 f2 d1 d2 : Nat) : Nat :=
  ((d2 + f1 * d1 % 2 ^ 32) % 2 ^ 32 + f2) % 2 ^ 32

/-- Embedding of `PhfMap<K, V>` of `src/phf/src/lib.rs`. -/
structure PhfMap (K V : Type) where
  key : Nat
  disps : List (Nat × Nat)
  entries : List (K × V)

/-- Embedding of `PhfMap::get_entry` of `src/phf/src/lib.rs`.  The slice
lengths pass through an `as u32` cast (`% 2 ^ 32`) before the `%` that
selects the displacement pair and the slot; a zero cast result makes the
Rust `%` panic, modelled as `.error .divByZero`.  `phfHash` models the
`PhfHash::phf_hash` trait method (implemented in `shared/mod.rs`, outside
`src/`), and `check` is the equality closure supplied by the callers. -/
def PhfMap.get_entry (phfHash : T → Nat → Nat × Nat × Nat) (m : PhfMap K V)
    (key : T) (check : K → Bool) : Except PhfError (Option (K × V)) :=
  let t := phfHash key m.key
  if hB : m.disps.length % 2 ^ 32 = 0 then .error .divByZero else
  let dd := m.disps.get ⟨t.1 % (m.disps.length % 2 ^ 32),
    Nat.lt_of_lt_of_le (Nat.mod_lt _ (Nat.pos_of_ne_zero hB)) (Nat.mod_le _ _)⟩
  if hN : m.entries.length % 2 ^ 32 = 0 then .error .divByZero else
  let e := m.entries.get ⟨displace t.2.1 t.2.2 dd.1 dd.2 % (m.entries.length % 2 ^ 32),
    Nat.lt_of_lt_of_le (Nat.mod_lt _ (Nat.pos_of_ne_zero hN)) (Nat.mod_le _ _)⟩
  if check e.1 then .ok (some e) else .ok none

/-- Embedding of the `Map::find` implementation for the generic `PhfMap`:
`get_entry` with the check `|k| key == k`, projected to the value. -/
def PhfMap.find [DecidableEq K] (phfHash : K → Nat → Nat × Nat × Nat)
    (m : PhfMap K V) (key : K) : Except PhfError (Option V) :=
  (m.get_entry phfHash key (fun k => decide (key = k))).map
    (fun o => o.map Prod.snd)

/-- Embedding of `PhfMap::find_key` of `src/phf/src/lib.rs`. -/
def PhfMap.find_key [DecidableEq K] (phfHash : K → Nat → Nat × Nat × Nat)
    (m : PhfMap K V) (key : K) : Except PhfError (Option K) :=
  (m.get_entry phfHash key (fun k => decide (key = k))).map
    (fun o => o.map Prod.fst)

/-- Embedding of the default `contains_key` of the `Map` trait for the
generic `PhfMap`. -/
def PhfMap.contains_key [DecidableEq K] (phfHash : K → Nat → Nat × Nat × Nat)
    (m : PhfMap K V) (key : K) : Except PhfError Bool :=
  (m.find phfHash key).map Option.isSome

/-- Embedding of the `Index` implementation for the generic `PhfMap`:
`self.find(k).expect("invalid key")`; the `expect` panic on an absent key
is modelled as `.error .invalidKey`. -/
def PhfMap.index [DecidableEq K] (phfHash : K → Nat → Nat × Nat × Nat)
    (m : PhfMap K V) (k : K) : Except PhfError V :=
  match m.find phfHash k with
  | .error e => .error e
  | .ok (some v) => .ok v
  | .ok none => .error .invalidKey

/-- The slot `get_entry` computes for a key; `none` when the slot
computation panics. -/
def PhfMap.slotOf (phfHash : T → Nat → Nat × Nat × Nat) (m : PhfMap K V)
    (key : T) : Option Nat :=
  let t := phfHash key m.key
  if hB : m.disps.length % 2 ^ 32 = 0 then none else
  let dd := m.disps.get ⟨t.1 % (m.disps.length % 2 ^ 32),
    Nat.lt_of_lt_of_le (Nat.mod_lt _ (Nat.pos_of_ne_zero hB)) (Nat.mod_le _ _)⟩
  if m.entries.length % 2 ^ 32 = 0 then none else
  some (displace t.2.1 t.2.2 dd.1 dd.2 % (m.entries.length % 2 ^ 32))

/-- The perfect-hash placement invariant for the generic `PhfMap`. -/
def PhfMap.Placed (phfHash : K → Nat → Nat × Nat × Nat) (m : PhfMap K V) :
    Prop :=
  ∀ i : Fin m.entries.length, m.slotOf phfHash (m.entries.get i).1 = some i.val

instance (phfHash : K → Nat → Nat × Nat × Nat) (m : PhfMap K V) :
    Decidable (m.Placed phfHash) :=
  inferInstanceAs (Decidable (∀ _, _))

/-- Embedding of `PhfOrderedMap<K, V>` of `src/phf/src/lib.rs`. -/
structure PhfOrderedMap (K V : Type) where
  key : Nat
  disps : List (Nat × Nat)
  idxs : List Nat
  entries : List (K × V)

/-- Embedding of `PhfOrderedMap::find_entry` of `src/phf/src/lib.rs`: the
slot is taken `mod (idxs.len() as u32)` and resolved through `idxs` before
indexing `entries`. -/
def PhfOrderedMap.find_entry (phfHash : T → Nat → Nat × Nat × Nat)
    (m : PhfOrderedMap K V) (key : T) (check : K → Bool) :
    Except PhfError (Option (K × V)) :=
  let t := phfHash key m.key
  if hB : m.disps.length % 2 ^ 32 = 0 then .error .divByZero else
  let dd := m.disps.get ⟨t.1 % (m.disps.length % 2 ^ 32),
    Nat.lt_of_lt_of_le (Nat.mod_lt _ (Nat.pos_of_ne_zero hB)) (Nat.mod_le _ _)⟩
  if hI : m.idxs.length % 2 ^ 32 = 0 then .error .divByZero else
  let idx := m.idxs.get ⟨displace t.2.1 t.2.2 dd.1 dd.2 % (m.idxs.length % 2 ^ 32),
    Nat.lt_of_lt_of_le (Nat.mod_lt _ (Nat.pos_of_ne_zero hI)) (Nat.mod_le _ _)⟩
  match m.entries[idx]? with
  | none => .error .indexOutOfBounds
  | some e => if check e.1 then .ok (some e) else .ok none

/-- Embedding of the `Map::find` implementation for the generic
`PhfOrderedMap` (check `|k| k == key`). -/
def PhfOrderedMap.find [DecidableEq K] (phfHash : K → Nat → Nat × Nat × Nat)
    (m : PhfOrderedMap K V) (key : K) : Except PhfError (Option V) :=
  (m.find_entry phfHash key (fun k => decide (k = key))).map
    (fun o => o.map Prod.snd)

/-- Embedding of `PhfOrderedMap::find_key` of `src/phf/src/lib.rs`. -/
def PhfOrderedMap.find_key [DecidableEq K]
    (phfHash : K → Nat → Nat × Nat × Nat) (m : PhfOrderedMap K V) (key : K) :
    Except PhfError (Option K) :=
  (m.find_entry phfHash key (fun k => decide (k = key))).map
    (fun o => o.map Prod.fst)

/-- Embedding of the default `contains_key` of the `Map` trait for the
generic `PhfOrderedMap`. -/
def PhfOrderedMap.contains_key [DecidableEq K]
    (phfHash : K → Nat → Nat × Nat × Nat) (m : PhfOrderedMap K V) (key : K) :
    Except PhfError Bool :=
  (m.find phfHash key).map Option.isSome

/-- Embedding of the `Index` implementation for the generic
`PhfOrderedMap`: `self.find(k).expect("invalid key")`. -/
def PhfOrderedMap.index [DecidableEq K]
    (phfHash : K → Nat → Nat × Nat × Nat) (m : PhfOrderedMap K V) (k : K) :
    Except PhfError V :=
  match m.find phfHash k with
  | .error e => .error e
  | .ok (some v) => .ok v
  | .ok none => .error .invalidKey

/-- The entry index the generic ordered read path resolves for a key. -/
def PhfOrderedMap.slotOf (phfHash : T → Nat → Nat × Nat × Nat)
    (m : PhfOrderedMap K V) (key : T) : Option Nat :=
  let t := phfHash key m.key
  if hB : m.disps.length % 2 ^ 32 = 0 then none else
  let dd := m.disps.get ⟨t.1 % (m.disps.length % 2 ^ 32),
    Nat.lt_of_lt_of_le (Nat.mod_lt _ (Nat.pos_of_ne_zero hB)) (Nat.mod_le _ _)⟩
  if hI : m.idxs.length % 2 ^ 32 = 0 then none else
  some (m.idxs.get ⟨displace t.2.1 t.2.2 dd.1 dd.2 % (m.idxs.length % 2 ^ 32),
    Nat.lt_of_lt_of_le (Nat.mod_lt _ (Nat.pos_of_ne_zero hI)) (Nat.mod_le _ _)⟩)

/-- The perfect-hash placement invariant for the generic `PhfOrderedMap`:
the resolved slot of every stored key is the index of its own entry. -/
def PhfOrderedMap.Placed (phfHash : K → Nat → Nat × Nat × Nat)
    (m : PhfOrderedMap K V) : Prop :=
  ∀ i : Fin m.entries.length,
    m.slotOf phfHash (m.entries.get i).1 = some i.val

instance (phfHash : K → Nat → Nat × Nat × Nat) (m : PhfOrderedMap K V) :
    Decidable (m.Placed phfHash) :=
  inferInstanceAs (Decidable (∀ _, _))

/-- Embedding of `PhfSet<T>` of `src/phf/src/lib.rs`: a `PhfMap<T, ()>`. -/
structure PhfSet (T : Type) where
  map : PhfMap T Unit

/-- The sequence of keys `PhfSet::iter` walks. -/
def PhfSet.iterKeys (s : PhfSet T) : List T :=
  s.map.entries.map Prod.fst

/-- Embedding of the `Set::contains` implementation for the generic
`PhfSet`. -/
def PhfSet.contains [DecidableEq T] (phfHash : T → Nat → Nat × Nat × Nat)
    (s : PhfSet T) (value : T) : Except PhfError Bool :=
  s.map.contains_key phfHash value

/-- Embedding of `Set::is_disjoint` for the generic `PhfSet`:
`!self.iter().any(|value| other.contains(value))`. -/
def PhfSet.is_disjoint [DecidableEq T] (phfHash : T → Nat → Nat × Nat × Nat)
    (s other : PhfSet T) : Except PhfError Bool :=
  Except.map not (anyExc (fun value => other.contains phfHash value) s.iterKeys)

/-- Embedding of `Set::is_subset` for the generic `PhfSet`:
`self.iter().all(|value| other.contains(value))`. -/
def PhfSet.is_subset [DecidableEq T] (phfHash : T → Nat → Nat × Nat × Nat)
    (s other : PhfSet T) : Except PhfError Bool :=
  allExc (fun value => other.contains phfHash value) s.iterKeys

/-- Embedding of the iterator struct `PhfMapEntries` of
`src/phf/src/lib.rs` (its `next` yields the entry pair itself). -/
structure PhfMapEntries (K V : Type) where
  iter : List (K × V)

/-- Embedding of `Iterator::next` for the generic `PhfMapEntries`. -/
def PhfMapEntries.next : PhfMapEntries K V → Option ((K × V) × PhfMapEntries K V)
  | ⟨[]⟩ => none
  | ⟨e :: rest⟩ => some (e, ⟨rest⟩)

/-- Embedding of `PhfMap::entries()` of `src/phf/src/lib.rs`. -/
def PhfMap.entriesIter (m : PhfMap K V) : PhfMapEntries K V :=
  ⟨m.entries⟩

/-- Drain the generic `PhfMapEntries` by repeated `next`. -/
def PhfMapEntries.toList (it : PhfMapEntries K V) : List (K × V) :=
  drainIter PhfMapEntries.next (fun s => s.iter.length)
    (by
      rintro ⟨l⟩ b s' h
      cases l with
      | nil => simp [PhfMapEntries.next] at h
      | cons e rest =>
        simp [PhfMapEntries.next] at h
        obtain ⟨h1, h2⟩ := h
        simp [← h2]) it

end New

/-- A simple concrete digest function used to instantiate the parametric
`sip` argument in witnesses and counterexamples: the digest of a string is
its byte length. -/
def sipLen (s : String) (_k1 _k2 : Nat) : Nat :=
  s.length

/-- A simple concrete `phf_hash` used to instantiate the parametric
`phfHash` argument in witnesses and counterexamples. -/
def hashLen (s : String) (_key : Nat) : Nat × Nat × Nat :=
  (s.length, 0, 0)

theorem drainIter_none {σ β : Type _} (next : σ → Option (β × σ)) (meas)
    (hdec) (s : σ) (h : next s = none) :
    drainIter next meas hdec s = [] := by
  rw [drainIter, h]

theorem drainIter_some {σ β : Type _} (next : σ → Option (β × σ)) (meas)
    (hdec) (s : σ) (b : β) (s' : σ) (h : next s = some (b, s')) :
    drainIter next meas hdec s = b :: drainIter next meas hdec s' := by
  rw [drainIter, h]

theorem anyExc_ok {ε α : Type _} (f : α → Except ε Bool) (g : α → Bool)
    (l : List α) (h : ∀ a ∈ l, f a = .ok (g a)) :
    anyExc f l = .ok (l.any g) := by
  induction l with
  | nil => rfl
  | cons a as ih =>
    unfold anyExc
    rw [h a (by simp)]
    cases hg : g a
    · rw [ih (fun b hb => h b (by simp [hb]))]
      simp [hg]
    · simp [hg]

theorem allExc_ok {ε α : Type _} (f : α → Except ε Bool) (g : α → Bool)
    (l : List α) (h : ∀ a ∈ l, f a = .ok (g a)) :
    allExc f l = .ok (l.all g) := by
  induction l with
  | nil => rfl
  | cons a as ih =>
    unfold allExc
    rw [h a (by simp)]
    cases hg : g a
    · simp [hg]
    · rw [ih (fun b hb => h b (by simp [hb]))]
      simp [hg]

namespace Old

theorem PhfMap.find_entry_of_slotOf (sip : String → Nat → Nat → Nat)
    (m : PhfMap V) (key : String) (j : Nat)
    (hs : m.slotOf sip key = some j) :
    ∃ h : j < m.entries.length,
      m.find_entry sip key =
        if (m.entries.get ⟨j, h⟩).1 = key
        then .ok (some (m.entries.get ⟨j, h⟩)) else .ok none := by
  unfold PhfMap.slotOf at hs
  by_cases hB : m.disps.length = 0
  · simp only [hB, dite_true] at hs
    exact absurd hs (by simp)
  · simp only [hB, dite_false] at hs
    by_cases hN : m.entries.length = 0
    · simp only [hN, if_true] at hs
      exact absurd hs (by simp)
    · simp only [hN, if_false, Option.some.injEq] at hs
      subst hs
      refine ⟨Nat.mod_lt _ (Nat.pos_of_ne_zero hN), ?_⟩
      unfold PhfMap.find_entry
      simp only [hB, dite_false, hN, dite_false]

theorem PhfMap.placed_find_entry (sip : String → Nat → Nat → Nat)
    (m : PhfMap V) (hp : m.Placed sip) (i : Fin m.entries.length) :
    m.find_entry sip (m.entries.get i).1 = .ok (some (m.entries.get i)) := by
  obtain ⟨h, he⟩ := m.find_entry_of_slotOf sip (m.entries.get i).1 i.val (hp i)
  rw [he]
  simp

theorem PhfMap.find_entry_total (sip : String → Nat → Nat → Nat)
    (m : PhfMap V) (key : String)
    (hB : 0 < m.disps.length) (hN : 0 < m.entries.length) :
    ∃ o, m.find_entry sip key = .ok o := by
  unfold PhfMap.find_entry
  simp only [Nat.pos_iff_ne_zero] at hB hN
  simp only [hB, dite_false, hN, dite_false]
  split <;> exact ⟨_, rfl⟩

theorem PhfMap.find_entry_absent (sip : String → Nat → Nat → Nat)
    (m : PhfMap V) (key : String)
    (hB : 0 < m.disps.length) (hN : 0 < m.entries.length)
    (habs : ∀ e ∈ m.entries, e.1 ≠ key) :
    m.find_entry sip key = .ok none := by
  unfold PhfMap.find_entry
  simp only [Nat.pos_iff_ne_zero] at hB hN
  simp only [hB, dite_false, hN, dite_false]
  rw [if_neg (habs _ (List.get_mem _ _ _))]

theorem PhfMap.find_entry_some (sip : String → Nat → Nat → Nat)
    (m : PhfMap V) (key : String) (e : String × V)
    (hfe : m.find_entry sip key = .ok (some e)) :
    e.1 = key ∧ e ∈ m.entries := by
  unfold PhfMap.find_entry at hfe
  by_cases hB : m.disps.length = 0
  · simp [hB] at hfe
  · by_cases hN : m.entries.length = 0
    · simp [hB, hN] at hfe
    · simp only [hB, dite_false, hN, dite_false] at hfe
      split at hfe
      · rename_i hk
        simp only [Except.ok.injEq, Option.some.injEq] at hfe
        exact ⟨hfe ▸ hk, hfe ▸ List.get_mem _ _ _⟩
      · simp at hfe

theorem PhfOrderedMap.find_entry_of_slotOf_ord (sip : String → Nat → Nat → Nat)
    (m : PhfOrderedMap V) (key : String) (j : Nat)
    (hs : m.slotOf sip key = some j) (h : j < m.entries.length) :
    m.find_entry sip key =
      if (m.entries.get ⟨j, h⟩).1 = key
      then .ok (some (m.entries.get ⟨j, h⟩)) else .ok none := by
  unfold PhfOrderedMap.slotOf at hs
  by_cases hB : m.disps.length = 0
  · simp [hB] at hs
  · simp only [hB, dite_false] at hs
    by_cases hI : m.idxs.length = 0
    · simp [hI] at hs
    · simp only [hI, dite_false, Option.some.injEq] at hs
      unfold PhfOrderedMap.find_entry
      simp only [hB, dite_false, hI, dite_false, hs,
                 List.getElem?_eq_getElem h]
      rfl

theorem PhfOrderedMap.placed_find_entry_ord (sip : String → Nat → Nat → Nat)
    (m : PhfOrderedMap V) (hp : m.Placed sip) (i : Fin m.entries.length) :
    m.find_entry sip (m.entries.get i).1 = .ok (some (m.entries.get i)) := by
  rw [m.find_entry_of_slotOf_ord sip (m.entries.get i).1 i.val (hp i) i.isLt]
  simp

theorem PhfOrderedMap.find_entry_total_ord (sip : String → Nat → Nat → Nat)
    (m : PhfOrderedMap V) (key : String)
    (hB : 0 < m.disps.length) (hI : 0 < m.idxs.length)
    (hbd : ∀ x ∈ m.idxs, x < m.entries.length) :
    ∃ o, m.find_entry sip key = .ok o := by
  unfold PhfOrderedMap.find_entry
  simp only [Nat.pos_iff_ne_zero] at hB hI
  simp only [hB, dite_false, hI, dite_false]
  rw [List.getElem?_eq_getElem (hbd _ (List.get_mem _ _ _))]
  split
  · rename_i heq
    simp at heq
  · split <;> exact ⟨_, rfl⟩

theorem PhfOrderedMap.find_entry_absent_ord (sip : String → Nat → Nat → Nat)
    (m : PhfOrderedMap V) (key : String)
    (hB : 0 < m.disps.length) (hI : 0 < m.idxs.length)
    (hbd : ∀ x ∈ m.idxs, x < m.entries.length)
    (habs : ∀ e ∈ m.entries, e.1 ≠ key) :
    m.find_entry sip key = .ok none := by
  unfold PhfOrderedMap.find_entry
  simp only [Nat.pos_iff_ne_zero] at hB hI
  simp only [hB, dite_false, hI, dite_false]
  rw [List.getElem?_eq_getElem (hbd _ (List.get_mem _ _ _))]
  split
  · rename_i heq
    simp at heq
  · rename_i e' heq
    simp only [Option.some.injEq] at heq
    exact if_neg (heq ▸ habs _ (List.getElem_mem _))

theorem PhfOrderedMap.find_entry_some_ord (sip : String → Nat → Nat → Nat)
    (m : PhfOrderedMap V) (key : String) (e : String × V)
    (hfe : m.find_entry sip key = .ok (some e)) :
    e.1 = key ∧ e ∈ m.entries := by
  unfold PhfOrderedMap.find_entry at hfe
  by_cases hB : m.disps.length = 0
  · simp [hB] at hfe
  · by_cases hI : m.idxs.length = 0
    · simp [hB, hI] at hfe
    · simp only [hB, dite_false, hI, dite_false] at hfe
      split at hfe
      · simp at hfe
      · rename_i e' he'
        split at hfe
        · rename_i hk
          simp only [Except.ok.injEq, Option.some.injEq] at hfe
          exact ⟨hfe ▸ hk, hfe ▸ List.getElem?_mem he'⟩
        · simp at hfe

end Old

namespace Old

variable {V : Type}

theorem displace_formula (f1 f2 d1 d2 : Nat) :
    displace f1 f2 d1 d2 = (d2 + f1 * d1 + f2) % 2 ^ 64 := by
  unfold displace
  generalize f1 * d1 = p
  omega

theorem hash_windows (sip : String → Nat → Nat → Nat) (s : String)
    (k1 k2 : Nat) :
    hash sip s k1 k2 =
      (sip s k1 k2 % 2 ^ 21,
       sip s k1 k2 / 2 ^ 21 % 2 ^ 21,
       sip s k1 k2 / 2 ^ 42 % 2 ^ 21) := by
  unfold hash MAX_SIZE LOG_MAX_SIZE
  simp only [Nat.shiftLeft_eq, one_mul, Nat.and_pow_two_sub_one_eq_mod,
             Nat.shiftRight_eq_div_pow]

theorem PhfMap.placed_disps_pos (sip : String → Nat → Nat → Nat)
    (m : PhfMap V) (hp : m.Placed sip) (hN : 0 < m.entries.length) :
    0 < m.disps.length := by
  have h0 := hp ⟨0, hN⟩
  unfold PhfMap.slotOf at h0
  by_cases hB : m.disps.length = 0
  · simp [hB] at h0
  · exact Nat.pos_of_ne_zero hB

theorem PhfMap.contains_key_eq (sip : String → Nat → Nat → Nat)
    (m : PhfMap V) (hp : m.Placed sip) (hN : 0 < m.entries.length)
    (key : String) :
    m.contains_key sip key = .ok (decide (key ∈ m.entries.map Prod.fst)) := by
  by_cases hk : key ∈ m.entries.map Prod.fst
  · obtain ⟨e, he, hke⟩ := List.mem_map.mp hk
    obtain ⟨i, hi⟩ := List.mem_iff_get.mp he
    have hfe := m.placed_find_entry sip hp i
    rw [hi, hke] at hfe
    unfold PhfMap.contains_key PhfMap.find
    rw [hfe]
    simp [Except.map, hk]
  · have habs : ∀ e ∈ m.entries, e.1 ≠ key := fun e he hke =>
      hk (List.mem_map.mpr ⟨e, he, hke⟩)
    have hfe := m.find_entry_absent sip key
      (m.placed_disps_pos sip hp hN) hN habs
    unfold PhfMap.contains_key PhfMap.find
    rw [hfe]
    simp [Except.map, hk]

theorem PhfOrderedMap.range_find_entry (sip : String → Nat → Nat → Nat)
    (k1 k2 : Nat) (disps : List (Nat × Nat)) (entries : List (String × V))
    (key : String) :
    (PhfOrderedMap.mk k1 k2 disps (List.range entries.length)
        entries).find_entry sip key =
      (PhfMap.mk k1 k2 disps entries).find_entry sip key := by
  unfold PhfOrderedMap.find_entry PhfMap.find_entry
  by_cases hB : disps.length = 0
  · simp [hB]
  · simp only [List.length_range, hB, dite_false]
    by_cases hN : entries.length = 0
    · simp [hN]
    · simp only [hN, dite_false]
      rw [List.get_range]
      rw [List.getElem?_eq_getElem (Nat.mod_lt _ (Nat.pos_of_ne_zero hN))]
      rfl

end Old

namespace Old

variable {V : Type}

theorem PhfMapEntries.toList_eq_entries (l : List (String × V)) :
    (⟨l⟩ : PhfMapEntries V).toList = l := by
  induction l with
  | nil => exact drainIter_none _ _ _ _ rfl
  | cons e rest ih =>
    have h1 : (⟨e :: rest⟩ : PhfMapEntries V).toList =
        e :: (⟨rest⟩ : PhfMapEntries V).toList :=
      drainIter_some _ _ _ _ _ _ rfl
    rw [h1, ih]

theorem PhfMapKeys.toList_eq_keys (l : List (String × V)) :
    (⟨⟨l⟩⟩ : PhfMapKeys V).toList = l.map Prod.fst := by
  induction l with
  | nil => exact drainIter_none _ _ _ _ rfl
  | cons e rest ih =>
    have h1 : (⟨⟨e :: rest⟩⟩ : PhfMapKeys V).toList =
        e.1 :: (⟨⟨rest⟩⟩ : PhfMapKeys V).toList :=
      drainIter_some _ _ _ _ _ _ rfl
    rw [h1, ih]
    rfl

theorem PhfMapValues.toList_eq_values (l : List (String × V)) :
    (⟨⟨l⟩⟩ : PhfMapValues V).toList = l.map Prod.snd := by
  induction l with
  | nil => exact drainIter_none _ _ _ _ rfl
  | cons e rest ih =>
    have h1 : (⟨⟨e :: rest⟩⟩ : PhfMapValues V).toList =
        e.2 :: (⟨⟨rest⟩⟩ : PhfMapValues V).toList :=
      drainIter_some _ _ _ _ _ _ rfl
    rw [h1, ih]
    rfl

theorem PhfSetValues.toList_eq_set_values (l : List (String × Unit)) :
    (⟨⟨⟨l⟩⟩⟩ : PhfSetValues).toList = l.map Prod.fst := by
  induction l with
  | nil => exact drainIter_none _ _ _ _ rfl
  | cons e rest ih =>
    have h1 : (⟨⟨⟨e :: rest⟩⟩⟩ : PhfSetValues).toList =
        e.1 :: (⟨⟨⟨rest⟩⟩⟩ : PhfSetValues).toList :=
      drainIter_some _ _ _ _ _ _ rfl
    rw [h1, ih]
    rfl

theorem PhfOrderedMapEntries.toList_eq_ord_entries (l : List (String × V)) :
    (⟨l⟩ : PhfOrderedMapEntries V).toList = l := by
  induction l with
  | nil => exact drainIter_none _ _ _ _ rfl
  | cons e rest ih =>
    have h1 : (⟨e :: rest⟩ : PhfOrderedMapEntries V).toList =
        e :: (⟨rest⟩ : PhfOrderedMapEntries V).toList :=
      drainIter_some _ _ _ _ _ _ rfl
    rw [h1, ih]

theorem PhfOrderedMapKeys.toList_eq_ord_keys (l : List (String × V)) :
    (⟨⟨l⟩⟩ : PhfOrderedMapKeys V).toList = l.map Prod.fst := by
  induction l with
  | nil => exact drainIter_none _ _ _ _ rfl
  | cons e rest ih =>
    have h1 : (⟨⟨e :: rest⟩⟩ : PhfOrderedMapKeys V).toList =
        e.1 :: (⟨⟨rest⟩⟩ : PhfOrderedMapKeys V).toList :=
      drainIter_some _ _ _ _ _ _ rfl
    rw [h1, ih]
    rfl

theorem PhfOrderedMapValues.toList_eq_ord_values (l : List (String × V)) :
    (⟨⟨l⟩⟩ : PhfOrderedMapValues V).toList = l.map Prod.snd := by
  induction l with
  | nil => exact drainIter_none _ _ _ _ rfl
  | cons e rest ih =>
    have h1 : (⟨⟨e :: rest⟩⟩ : PhfOrderedMapValues V).toList =
        e.2 :: (⟨⟨rest⟩⟩ : PhfOrderedMapValues V).toList :=
      drainIter_some _ _ _ _ _ _ rfl
    rw [h1, ih]
    rfl

theorem PhfOrderedSetValues.toList_eq_ord_set_values (l : List (String × Unit)) :
    (⟨⟨⟨l⟩⟩⟩ : PhfOrderedSetValues).toList = l.map Prod.fst := by
  induction l with
  | nil => exact drainIter_none _ _ _ _ rfl
  | cons e rest ih =>
    have h1 : (⟨⟨⟨e :: rest⟩⟩⟩ : PhfOrderedSetValues).toList =
        e.1 :: (⟨⟨⟨rest⟩⟩⟩ : PhfOrderedSetValues).toList :=
      drainIter_some _ _ _ _ _ _ rfl
    rw [h1, ih]
    rfl

end Old

namespace New

variable {K V : Type}

theorem PhfMapEntries.toList_eq_gen_entries (l : List (K × V)) :
    (⟨l⟩ : PhfMapEntries K V).toList = l := by
  induction l with
  | nil => exact drainIter_none _ _ _ _ rfl
  | cons e rest ih =>
    have h1 : (⟨e :: rest⟩ : PhfMapEntries K V).toList =
        e :: (⟨rest⟩ : PhfMapEntries K V).toList :=
      drainIter_some _ _ _ _ _ _ rfl
    rw [h1, ih]

end New

namespace New

variable {K V T : Type}

theorem displace_formula_u32 (f1 f2 d1 d2 : Nat) :
    displace f1 f2 d1 d2 = (d2 + f1 * d1 + f2) % 2 ^ 32 := by
  unfold displace
  generalize f1 * d1 = p
  omega

theorem PhfMap.get_entry_of_slotOf (phfHash : T → Nat → Nat × Nat × Nat)
    (m : PhfMap K V) (key : T) (check : K → Bool) (j : Nat)
    (hs : m.slotOf phfHash key = some j) :
    ∃ h : j < m.entries.length,
      m.get_entry phfHash key check =
        if check (m.entries.get ⟨j, h⟩).1
        then .ok (some (m.entries.get ⟨j, h⟩)) else .ok none := by
  unfold PhfMap.slotOf at hs
  by_cases hB : m.disps.length % 2 ^ 32 = 0
  · simp only [hB, dite_true] at hs
    exact absurd hs (by simp)
  · simp only [hB, dite_false] at hs
    by_cases hN : m.entries.length % 2 ^ 32 = 0
    · simp only [hN, if_true] at hs
      exact absurd hs (by simp)
    · simp only [hN, if_false, Option.some.injEq] at hs
      subst hs
      refine ⟨Nat.lt_of_lt_of_le (Nat.mod_lt _ (Nat.pos_of_ne_zero hN))
        (Nat.mod_le _ _), ?_⟩
      unfold PhfMap.get_entry
      simp only [hB, dite_false, hN, dite_false]

theorem PhfMap.placed_get_entry (phfHash : K → Nat → Nat × Nat × Nat)
    (m : PhfMap K V) (check : K → Bool) (hp : m.Placed phfHash)
    (i : Fin m.entries.length) (hc : check (m.entries.get i).1 = true) :
    m.get_entry phfHash (m.entries.get i).1 check =
      .ok (some (m.entries.get i)) := by
  obtain ⟨h, he⟩ :=
    m.get_entry_of_slotOf phfHash (m.entries.get i).1 check i.val (hp i)
  rw [he, if_pos (show check (m.entries.get ⟨i.val, h⟩).1 = true from hc)]

theorem PhfMap.get_entry_total (phfHash : T → Nat → Nat × Nat × Nat)
    (m : PhfMap K V) (key : T) (check : K → Bool)
    (hB : m.disps.length % 2 ^ 32 ≠ 0) (hN : m.entries.length % 2 ^ 32 ≠ 0) :
    ∃ o, m.get_entry phfHash key check = .ok o := by
  unfold PhfMap.get_entry
  simp only [hB, dite_false, hN, dite_false]
  split <;> exact ⟨_, rfl⟩

theorem PhfMap.get_entry_absent (phfHash : T → Nat → Nat × Nat × Nat)
    (m : PhfMap K V) (key : T) (check : K → Bool)
    (hB : m.disps.length % 2 ^ 32 ≠ 0) (hN : m.entries.length % 2 ^ 32 ≠ 0)
    (habs : ∀ e ∈ m.entries, check e.1 = false) :
    m.get_entry phfHash key check = .ok none := by
  unfold PhfMap.get_entry
  simp only [hB, dite_false, hN, dite_false]
  rw [habs _ (List.get_mem _ _ _)]
  simp

theorem PhfMap.get_entry_some (phfHash : T → Nat → Nat × Nat × Nat)
    (m : PhfMap K V) (key : T) (check : K → Bool) (e : K × V)
    (hfe : m.get_entry phfHash key check = .ok (some e)) :
    check e.1 = true ∧ e ∈ m.entries := by
  unfold PhfMap.get_entry at hfe
  by_cases hB : m.disps.length % 2 ^ 32 = 0
  · simp only [hB, dite_true] at hfe
    exact absurd hfe (by simp)
  · by_cases hN : m.entries.length % 2 ^ 32 = 0
    · simp only [hB, dite_false, hN, dite_true] at hfe
      exact absurd hfe (by simp)
    · simp only [hB, dite_false, hN, dite_false] at hfe
      split at hfe
      · rename_i hk
        simp only [Except.ok.injEq, Option.some.injEq] at hfe
        exact ⟨hfe ▸ hk, hfe ▸ List.get_mem _ _ _⟩
      · simp at hfe

theorem PhfMap.placed_guards (phfHash : K → Nat → Nat × Nat × Nat)
    (m : PhfMap K V) (hp : m.Placed phfHash) (hN : 0 < m.entries.length) :
    m.disps.length % 2 ^ 32 ≠ 0 ∧ m.entries.length % 2 ^ 32 ≠ 0 := by
  have h0 := hp ⟨0, hN⟩
  unfold PhfMap.slotOf at h0
  by_cases hB : m.disps.length % 2 ^ 32 = 0
  · simp only [hB, dite_true] at h0
    exact absurd h0 (by simp)
  · refine ⟨hB, ?_⟩
    simp only [hB, dite_false] at h0
    by_cases hE : m.entries.length % 2 ^ 32 = 0
    · simp only [hE, if_true] at h0
      exact absurd h0 (by simp)
    · exact hE

theorem PhfMap.placed_find [DecidableEq K] (phfHash : K → Nat → Nat × Nat × Nat)
    (m : PhfMap K V) (hp : m.Placed phfHash) (i : Fin m.entries.length) :
    m.find phfHash (m.entries.get i).1 = .ok (some (m.entries.get i).2) := by
  have hfe := m.placed_get_entry phfHash
    (fun k => decide ((m.entries.get i).1 = k)) hp i (by simp)
  unfold PhfMap.find
  rw [hfe]
  rfl

theorem PhfMap.placed_find_key [DecidableEq K]
    (phfHash : K → Nat → Nat × Nat × Nat) (m : PhfMap K V)
    (hp : m.Placed phfHash) (i : Fin m.entries.length) :
    m.find_key phfHash (m.entries.get i).1 =
      .ok (some (m.entries.get i).1) := by
  have hfe := m.placed_get_entry phfHash
    (fun k => decide ((m.entries.get i).1 = k)) hp i (by simp)
  unfold PhfMap.find_key
  rw [hfe]
  rfl

theorem PhfMap.find_absent [DecidableEq K]
    (phfHash : K → Nat → Nat × Nat × Nat) (m : PhfMap K V) (key : K)
    (hB : m.disps.length % 2 ^ 32 ≠ 0) (hN : m.entries.length % 2 ^ 32 ≠ 0)
    (habs : ∀ e ∈ m.entries, e.1 ≠ key) :
    m.find phfHash key = .ok none := by
  have hfe := m.get_entry_absent phfHash key (fun k => decide (key = k)) hB hN
    (fun e he => by simpa using fun hke => habs e he hke.symm)
  unfold PhfMap.find
  rw [hfe]
  rfl

theorem PhfMap.find_key_absent [DecidableEq K]
    (phfHash : K → Nat → Nat × Nat × Nat) (m : PhfMap K V) (key : K)
    (hB : m.disps.length % 2 ^ 32 ≠ 0) (hN : m.entries.length % 2 ^ 32 ≠ 0)
    (habs : ∀ e ∈ m.entries, e.1 ≠ key) :
    m.find_key phfHash key = .ok none := by
  have hfe := m.get_entry_absent phfHash key (fun k => decide (key = k)) hB hN
    (fun e he => by simpa using fun hke => habs e he hke.symm)
  unfold PhfMap.find_key
  rw [hfe]
  rfl

theorem PhfMap.contains_key_eq_gen [DecidableEq K]
    (phfHash : K → Nat → Nat × Nat × Nat) (m : PhfMap K V)
    (hp : m.Placed phfHash) (hN : 0 < m.entries.length) (key : K) :
    m.contains_key phfHash key =
      .ok (decide (key ∈ m.entries.map Prod.fst)) := by
  obtain ⟨hB, hE⟩ := m.placed_guards phfHash hp hN
  by_cases hk : key ∈ m.entries.map Prod.fst
  · obtain ⟨e, he, hke⟩ := List.mem_map.mp hk
    obtain ⟨i, hi⟩ := List.mem_iff_get.mp he
    have hfind := m.placed_find phfHash hp i
    rw [hi, hke] at hfind
    unfold PhfMap.contains_key
    rw [hfind]
    simp [Except.map, hk]
  · have habs : ∀ e ∈ m.entries, e.1 ≠ key := fun e he hke =>
      hk (List.mem_map.mpr ⟨e, he, hke⟩)
    have hfind := m.find_absent phfHash key hB hE habs
    unfold PhfMap.contains_key
    rw [hfind]
    simp [Except.map, hk]

theorem PhfMap.index_present [DecidableEq K]
    (phfHash : K → Nat → Nat × Nat × Nat) (m : PhfMap K V)
    (hp : m.Placed phfHash) (i : Fin m.entries.length) :
    m.index phfHash (m.entries.get i).1 = .ok (m.entries.get i).2 := by
  unfold PhfMap.index
  rw [m.placed_find phfHash hp i]

theorem PhfMap.index_absent [DecidableEq K]
    (phfHash : K → Nat → Nat × Nat × Nat) (m : PhfMap K V) (k : K)
    (hB : m.disps.length % 2 ^ 32 ≠ 0) (hN : m.entries.length % 2 ^ 32 ≠ 0)
    (habs : ∀ e ∈ m.entries, e.1 ≠ k) :
    m.index phfHash k = .error .invalidKey := by
  unfold PhfMap.index
  rw [m.find_absent phfHash k hB hN habs]

end New

namespace New

variable {K V T : Type}

theorem PhfOrderedMap.find_entry_of_slotOf_gord (phfHash : T → Nat → Nat × Nat × Nat)
    (m : PhfOrderedMap K V) (key : T) (check : K → Bool) (j : Nat)
    (hs : m.slotOf phfHash key = some j) (h : j < m.entries.length) :
    m.find_entry phfHash key check =
      if check (m.entries.get ⟨j, h⟩).1
      then .ok (some (m.entries.get ⟨j, h⟩)) else .ok none := by
  unfold PhfOrderedMap.slotOf at hs
  by_cases hB : m.disps.length % 2 ^ 32 = 0
  · simp only [hB, dite_true] at hs
    exact absurd hs (by simp)
  · simp only [hB, dite_false] at hs
    by_cases hI : m.idxs.length % 2 ^ 32 = 0
    · simp only [hI, dite_true] at hs
      exact absurd hs (by simp)
    · simp only [hI, dite_false, Option.some.injEq] at hs
      unfold PhfOrderedMap.find_entry
      simp only [hB, dite_false, hI, dite_false, hs,
                 List.getElem?_eq_getElem h]
      rfl

theorem PhfOrderedMap.placed_guards_gord (phfHash : K → Nat → Nat × Nat × Nat)
    (m : PhfOrderedMap K V) (hp : m.Placed phfHash)
    (hN : 0 < m.entries.length) :
    m.disps.length % 2 ^ 32 ≠ 0 ∧ m.idxs.length % 2 ^ 32 ≠ 0 := by
  have h0 := hp ⟨0, hN⟩
  unfold PhfOrderedMap.slotOf at h0
  by_cases hB : m.disps.length % 2 ^ 32 = 0
  · simp only [hB, dite_true] at h0
    exact absurd h0 (by simp)
  · refine ⟨hB, ?_⟩
    simp only [hB, dite_false] at h0
    by_cases hI : m.idxs.length % 2 ^ 32 = 0
    · simp only [hI, dite_true] at h0
      exact absurd h0 (by simp)
    · exact hI

theorem PhfOrderedMap.placed_find_gord [DecidableEq K]
    (phfHash : K → Nat → Nat × Nat × Nat) (m : PhfOrderedMap K V)
    (hp : m.Placed phfHash) (i : Fin m.entries.length) :
    m.find phfHash (m.entries.get i).1 = .ok (some (m.entries.get i).2) := by
  have he := m.find_entry_of_slotOf_gord phfHash (m.entries.get i).1
    (fun k => decide (k = (m.entries.get i).1)) i.val (hp i) i.isLt
  unfold PhfOrderedMap.find
  rw [he, if_pos (show decide ((m.entries.get ⟨i.val, i.isLt⟩).1 =
    (m.entries.get i).1) = true from by simp)]
  rfl

theorem PhfOrderedMap.find_entry_absent_gord (phfHash : T → Nat → Nat × Nat × Nat)
    (m : PhfOrderedMap K V) (key : T) (check : K → Bool)
    (hB : m.disps.length % 2 ^ 32 ≠ 0) (hI : m.idxs.length % 2 ^ 32 ≠ 0)
    (hbd : ∀ x ∈ m.idxs, x < m.entries.length)
    (habs : ∀ e ∈ m.entries, check e.1 = false) :
    m.find_entry phfHash key check = .ok none := by
  unfold PhfOrderedMap.find_entry
  simp only [hB, dite_false, hI, dite_false]
  rw [List.getElem?_eq_getElem (hbd _ (List.get_mem _ _ _))]
  split
  · rename_i heq
    simp at heq
  · rename_i e' heq
    simp only [Option.some.injEq] at heq
    have hf : check e'.1 = false := heq ▸ habs _ (List.getElem_mem _)
    simp [hf]

theorem PhfOrderedMap.find_absent_gord [DecidableEq K]
    (phfHash : K → Nat → Nat × Nat × Nat) (m : PhfOrderedMap K V) (key : K)
    (hB : m.disps.length % 2 ^ 32 ≠ 0) (hI : m.idxs.length % 2 ^ 32 ≠ 0)
    (hbd : ∀ x ∈ m.idxs, x < m.entries.length)
    (habs : ∀ e ∈ m.entries, e.1 ≠ key) :
    m.find phfHash key = .ok none := by
  have hfe := m.find_entry_absent_gord phfHash key (fun k => decide (k = key))
    hB hI hbd (fun e he => decide_eq_false (habs e he))
  unfold PhfOrderedMap.find
  rw [hfe]
  rfl

theorem PhfOrderedMap.index_present_gord [DecidableEq K]
    (phfHash : K → Nat → Nat × Nat × Nat) (m : PhfOrderedMap K V)
    (hp : m.Placed phfHash) (i : Fin m.entries.length) :
    m.index phfHash (m.entries.get i).1 = .ok (m.entries.get i).2 := by
  unfold PhfOrderedMap.index
  rw [m.placed_find_gord phfHash hp i]

theorem PhfOrderedMap.index_absent_gord [DecidableEq K]
    (phfHash : K → Nat → Nat × Nat × Nat) (m : PhfOrderedMap K V) (k : K)
    (hB : m.disps.length % 2 ^ 32 ≠ 0) (hI : m.idxs.length % 2 ^ 32 ≠ 0)
    (hbd : ∀ x ∈ m.idxs, x < m.entries.length)
    (habs : ∀ e ∈ m.entries, e.1 ≠ k) :
    m.index phfHash k = .error .invalidKey := by
  unfold PhfOrderedMap.index
  rw [m.find_absent_gord phfHash k hB hI hbd habs]

end New

/-- Claim C10: if a PhfOrderedMap idxs array is the identity permutation of
[0, N) where N = entries.len(), then for every query key, the ordered find,
find_key and contains_key return exactly what a plain PhfMap with the same
seed pair, disps and entries returns: the ordered read path is the plain
read path composed with the idxs indirection. -/
theorem c10_ordered_refines_plain (V : Type) (sip : String → Nat → Nat → Nat)
    (k1 k2 : Nat) (disps : List (Nat × Nat)) (entries : List (String × V))
    (key : String) :
    (Old.PhfOrderedMap.mk k1 k2 disps (List.range entries.length)
        entries).find sip key =
      (Old.PhfMap.mk k1 k2 disps entries).find sip key ∧
    (Old.PhfOrderedMap.mk k1 k2 disps (List.range entries.length)
        entries).find_key sip key =
      (Old.PhfMap.mk k1 k2 disps entries).find_key sip key ∧
    (Old.PhfOrderedMap.mk k1 k2 disps (List.range entries.length)
        entries).contains_key sip key =
      (Old.PhfMap.mk k1 k2 disps entries).contains_key sip key := by
  have h := Old.PhfOrderedMap.range_find_entry sip k1 k2 disps entries key
  refine ⟨?_, ?_, ?_⟩
  · unfold Old.PhfOrderedMap.find Old.PhfMap.find
    rw [h]
  · unfold Old.PhfOrderedMap.find_key Old.PhfMap.find_key
    rw [h]
  · unfold Old.PhfOrderedMap.contains_key Old.PhfMap.contains_key
      Old.PhfOrderedMap.find Old.PhfMap.find
    rw [h]

/-- Claim C5: for the order-preserving map and set, draining the
entries/keys/values iterators yields exactly the elements of the entries
array (which the builder keeps in definition order) in that order; for the
non-order-preserving variants, the drained sequence is the same fixed
function of the table on every call (the entries array in its stored
order), hence stable across repeated calls. -/
theorem c5_iteration_order :
    (∀ (V : Type) (m : Old.PhfOrderedMap V),
       m.entriesIter.toList = m.entries ∧
       m.keysIter.toList = m.entries.map Prod.fst ∧
       m.valuesIter.toList = m.entries.map Prod.snd) ∧
    (∀ s : Old.PhfOrderedSet, s.iter.toList = s.map.entries.map Prod.fst) ∧
    (∀ (V : Type) (m : Old.PhfMap V),
       m.entriesIter.toList = m.entries ∧
       m.keysIter.toList = m.entries.map Prod.fst ∧
       m.valuesIter.toList = m.entries.map Prod.snd) ∧
    (∀ s : Old.PhfSet, s.iter.toList = s.map.entries.map Prod.fst) ∧
    (∀ (K V : Type) (m : New.PhfMap K V), m.entriesIter.toList = m.entries) :=
  ⟨fun V m => ⟨Old.PhfOrderedMapEntries.toList_eq_ord_entries _,
               Old.PhfOrderedMapKeys.toList_eq_ord_keys _,
               Old.PhfOrderedMapValues.toList_eq_ord_values _⟩,
   fun s => Old.PhfOrderedSetValues.toList_eq_ord_set_values _,
   fun V m => ⟨Old.PhfMapEntries.toList_eq_entries _,
               Old.PhfMapKeys.toList_eq_keys _,
               Old.PhfMapValues.toList_eq_values _⟩,
   fun s => Old.PhfSetValues.toList_eq_set_values _,
   fun K V m => New.PhfMapEntries.toList_eq_gen_entries _⟩

/-- Claim C7: for every string and seed pair, hash returns a triple with
each component in [0, 2^21), obtained by splitting the 64-bit SipHash
digest into the three 21-bit windows made of bits 0-20 (value mod 2^21),
bits 21-41 (value divided by 2^21, mod 2^21) and bits 42-62 (value divided
by 2^42, mod 2^21). -/
theorem c7_hash_windows (sip : String → Nat → Nat → Nat) (s : String)
    (k1 k2 : Nat) (hdig : sip s k1 k2 < 2 ^ 64) :
    Old.MAX_SIZE = 2 ^ 21 ∧
    ((Old.hash sip s k1 k2).1 < 2 ^ 21 ∧
     (Old.hash sip s k1 k2).2.1 < 2 ^ 21 ∧
     (Old.hash sip s k1 k2).2.2 < 2 ^ 21) ∧
    (Old.hash sip s k1 k2).1 = sip s k1 k2 % 2 ^ 21 ∧
    (Old.hash sip s k1 k2).2.1 = sip s k1 k2 / 2 ^ 21 % 2 ^ 21 ∧
    (Old.hash sip s k1 k2).2.2 = sip s k1 k2 / 2 ^ 42 % 2 ^ 21 := by
  rw [Old.hash_windows]
  refine ⟨by decide, ⟨?_, ?_, ?_⟩, rfl, rfl, rfl⟩ <;>
    exact Nat.mod_lt _ (by norm_num)

/-- Claim C7 witness: the windows theorem instantiated at a concrete digest
function, string and seeds. -/
theorem c7_hash_windows_witness :
    sipLen "abc" 0 0 < 2 ^ 64 ∧
    (Old.hash sipLen "abc" 0 0).1 = sipLen "abc" 0 0 % 2 ^ 21 :=
  ⟨by decide, (c7_hash_windows sipLen "abc" 0 0 (by decide)).2.2.1⟩

/-- Claim C6: displace computes d2 + f1*d1 + f2 in unsigned machine-word
arithmetic (64-bit uint, so the value is the mathematical sum reduced mod
2^64), and the lookup path uses that value taken mod N — N being the
length of entries for the plain map and the length of idxs for the ordered
map — to select the final slot: whatever entry a successful lookup
returns is the one sitting at that slot. -/
theorem c6_displace_usage :
    (∀ f1 f2 d1 d2 : Nat,
       Old.displace f1 f2 d1 d2 = (d2 + f1 * d1 + f2) % 2 ^ 64) ∧
    (∀ (V : Type) (sip : String → Nat → Nat → Nat) (m : Old.PhfMap V)
       (key : String) (g f1 f2 d1 d2 : Nat) (e : String × V),
       Old.hash sip key m.k1 m.k2 = (g, f1, f2) →
       m.disps[g % m.disps.length]? = some (d1, d2) →
       m.find_entry sip key = .ok (some e) →
       m.entries[Old.displace f1 f2 d1 d2 % m.entries.length]? = some e) ∧
    (∀ (V : Type) (sip : String → Nat → Nat → Nat) (m : Old.PhfOrderedMap V)
       (key : String) (g f1 f2 d1 d2 idx : Nat) (e : String × V),
       Old.hash sip key m.k1 m.k2 = (g, f1, f2) →
       m.disps[g % m.disps.length]? = some (d1, d2) →
       m.idxs[Old.displace f1 f2 d1 d2 % m.idxs.length]? = some idx →
       m.find_entry sip key = .ok (some e) →
       m.entries[idx]? = some e) := by
  refine ⟨Old.displace_formula, ?_, ?_⟩
  · intro V sip m key g f1 f2 d1 d2 e hh hd hfe
    obtain ⟨hlt, hval⟩ := List.getElem?_eq_some.mp hd
    have hB : m.disps.length ≠ 0 :=
      Nat.pos_iff_ne_zero.mp (Nat.lt_of_le_of_lt (Nat.zero_le _) hlt)
    unfold Old.PhfMap.find_entry at hfe
    by_cases hN : m.entries.length = 0
    · simp only [hB, dite_false, hN, dite_true] at hfe
      exact absurd hfe (by simp)
    · simp only [hB, dite_false, hN, dite_false] at hfe
      simp only [hh, List.get_eq_getElem, hval] at hfe
      rw [List.getElem?_eq_getElem (Nat.mod_lt _ (Nat.pos_of_ne_zero hN))]
      split at hfe
      · simp only [Except.ok.injEq, Option.some.injEq] at hfe
        rw [hfe]
      · simp at hfe
  · intro V sip m key g f1 f2 d1 d2 idx e hh hd hi hfe
    obtain ⟨hltd, hvald⟩ := List.getElem?_eq_some.mp hd
    obtain ⟨hlti, hvali⟩ := List.getElem?_eq_some.mp hi
    have hB : m.disps.length ≠ 0 :=
      Nat.pos_iff_ne_zero.mp (Nat.lt_of_le_of_lt (Nat.zero_le _) hltd)
    have hI : m.idxs.length ≠ 0 :=
      Nat.pos_iff_ne_zero.mp (Nat.lt_of_le_of_lt (Nat.zero_le _) hlti)
    unfold Old.PhfOrderedMap.find_entry at hfe
    simp only [hB, dite_false, hI, dite_false] at hfe
    simp only [hh, List.get_eq_getElem, hvald, hvali] at hfe
    split at hfe
    · simp at hfe
    · rename_i e' he'
      split at hfe
      · simp only [Except.ok.injEq, Option.some.injEq] at hfe
        rw [← hfe]
        exact he'
      · simp at hfe

/-- Claim C6 witness: the displacement formula and both slot-selection
facts instantiated at concrete tables and keys. -/
theorem c6_displace_usage_witness :
    Old.displace 2 3 4 5 = (5 + 2 * 4 + 3) % 2 ^ 64 ∧
    (Old.PhfMap.mk 0 0 [(0, 0), (0, 1)]
        [("bb", 10), ("a", 11)]).entries[Old.displace 0 0 0 1 % 2]? =
      some ("a", 11) ∧
    (Old.PhfOrderedMap.mk 0 0 [(0, 0), (0, 1)] [1, 0]
        [("a", 1), ("bb", 2)]).entries[(0 : Nat)]? = some ("a", 1) :=
  ⟨c6_displace_usage.1 2 3 4 5,
   c6_displace_usage.2.1 Nat sipLen _ "a" 1 0 0 0 1 ("a", 11)
     (by decide) (by decide) (by decide),
   c6_displace_usage.2.2 Nat sipLen _ "a" 1 0 0 0 1 0 ("a", 1)
     (by decide) (by decide) (by decide) (by decide)⟩

/-- Claim C1: for every table whose stored keys are pairwise distinct and
which satisfies the perfect-hash placement invariant — the read-path slot
computation, resolved through idxs for the ordered variants, maps each
stored key to its own entry — and for every query key equal to some stored
key, find returns Some of the value that was stored with that key.  Stated
for both library generations and both the plain and the order-preserving
maps. -/
theorem c1_roundtrip :
    (∀ (V : Type) (sip : String → Nat → Nat → Nat) (m : Old.PhfMap V)
       (k : String) (v : V),
       m.entries.Pairwise (fun a b => a.1 ≠ b.1) →
       m.Placed sip → (k, v) ∈ m.entries →
       m.find sip k = .ok (some v)) ∧
    (∀ (V : Type) (sip : String → Nat → Nat → Nat) (m : Old.PhfOrderedMap V)
       (k : String) (v : V),
       m.entries.Pairwise (fun a b => a.1 ≠ b.1) →
       m.Placed sip → (k, v) ∈ m.entries →
       m.find sip k = .ok (some v)) ∧
    (∀ (K V : Type) [DecidableEq K] (phfHash : K → Nat → Nat × Nat × Nat)
       (m : New.PhfMap K V) (k : K) (v : V),
       m.entries.Pairwise (fun a b => a.1 ≠ b.1) →
       m.Placed phfHash → (k, v) ∈ m.entries →
       m.find phfHash k = .ok (some v)) ∧
    (∀ (K V : Type) [DecidableEq K] (phfHash : K → Nat → Nat × Nat × Nat)
       (m : New.PhfOrderedMap K V) (k : K) (v : V),
       m.entries.Pairwise (fun a b => a.1 ≠ b.1) →
       m.Placed phfHash → (k, v) ∈ m.entries →
       m.find phfHash k = .ok (some v)) := by
  refine ⟨?_, ?_, ?_, ?_⟩
  · intro V sip m k v hdist hp hmem
    obtain ⟨i, hi⟩ := List.mem_iff_get.mp hmem
    have hfe := m.placed_find_entry sip hp i
    have hk : (m.entries.get i).1 = k := by rw [hi]
    rw [hk] at hfe
    unfold Old.PhfMap.find
    rw [hfe, hi]
    rfl
  · intro V sip m k v hdist hp hmem
    obtain ⟨i, hi⟩ := List.mem_iff_get.mp hmem
    have hfe := m.placed_find_entry_ord sip hp i
    have hk : (m.entries.get i).1 = k := by rw [hi]
    rw [hk] at hfe
    unfold Old.PhfOrderedMap.find
    rw [hfe, hi]
    rfl
  · intro K V inst phfHash m k v hdist hp hmem
    obtain ⟨i, hi⟩ := List.mem_iff_get.mp hmem
    have hfind := m.placed_find phfHash hp i
    have hk : (m.entries.get i).1 = k := by rw [hi]
    have hv : (m.entries.get i).2 = v := by rw [hi]
    rw [hk, hv] at hfind
    exact hfind
  · intro K V inst phfHash m k v hdist hp hmem
    obtain ⟨i, hi⟩ := List.mem_iff_get.mp hmem
    have hfind := m.placed_find_gord phfHash hp i
    have hk : (m.entries.get i).1 = k := by rw [hi]
    have hv : (m.entries.get i).2 = v := by rw [hi]
    rw [hk, hv] at hfind
    exact hfind

/-- Claim C1 witness: the round-trip theorem instantiated at concrete
tables satisfying the placement invariant under concrete hash
functions. -/
theorem c1_roundtrip_witness :
    (Old.PhfMap.mk 0 0 [(0, 0), (0, 1)]
        [("bb", 10), ("a", 11)]).find sipLen "a" = .ok (some 11) ∧
    (Old.PhfOrderedMap.mk 0 0 [(0, 0), (0, 1)] [1, 0]
        [("a", 1), ("bb", 2)]).find sipLen "bb" = .ok (some 2) ∧
    (New.PhfMap.mk 0 [(0, 0), (0, 1)]
        [("bb", 10), ("a", 11)]).find hashLen "a" = .ok (some 11) ∧
    (New.PhfOrderedMap.mk 0 [(0, 0), (0, 1)] [1, 0]
        [("a", 1), ("bb", 2)]).find hashLen "bb" = .ok (some 2) :=
  ⟨c1_roundtrip.1 Nat sipLen _ "a" 11 (by decide) (by decide) (by decide),
   c1_roundtrip.2.1 Nat sipLen _ "bb" 2 (by decide) (by decide) (by decide),
   c1_roundtrip.2.2.1 String Nat hashLen _ "a" 11
     (by decide) (by decide) (by decide),
   c1_roundtrip.2.2.2 String Nat hashLen _ "bb" 2
     (by decide) (by decide) (by decide)⟩

/-- Claim C3 counterexample: on a table with zero entries (and the empty
displacement array that goes with it) the query path is not total — the
Rust modulus by a zero slice length panics, so find and contains fail
instead of returning an absent result. -/
theorem c3_totality_counterexample :
    (Old.PhfMap.mk 0 0 [] ([] : List (String × Nat))).find sipLen "x" =
        .error .divByZero ∧
    (Old.PhfMap.mk 0 0 [] ([] : List (String × Nat))).contains_key sipLen "x" =
        .error .divByZero ∧
    (New.PhfMap.mk 0 [] ([] : List (String × Nat))).find hashLen "x" =
        .error .divByZero := by
  refine ⟨by decide, by decide, by decide⟩

/-- Claim C3 as amended: for every table whose disps and entries arrays are
nonempty (with, in the generic implementation, lengths that do not cast to
zero in u32), find and contains are total — every index and modulus on the
lookup path is well-defined and the result is an Ok value — an absent key
yields an absent result rather than a failure, and iterating the entries
is total for every table, the empty one included. -/
theorem c3_queries_total :
    (∀ (V : Type) (sip : String → Nat → Nat → Nat) (m : Old.PhfMap V)
       (key : String),
       0 < m.disps.length → 0 < m.entries.length →
       (∃ o, m.find sip key = .ok o) ∧
       (∃ b, m.contains_key sip key = .ok b) ∧
       ((∀ e ∈ m.entries, e.1 ≠ key) → m.find sip key = .ok none)) ∧
    (∀ (K V T : Type) (phfHash : T → Nat → Nat × Nat × Nat) (check : K → Bool)
       (m : New.PhfMap K V) (key : T),
       m.disps.length % 2 ^ 32 ≠ 0 → m.entries.length % 2 ^ 32 ≠ 0 →
       ∃ o, m.get_entry phfHash key check = .ok o) ∧
    (∀ (V : Type) (m : Old.PhfMap V), m.entriesIter.toList = m.entries) := by
  refine ⟨?_, ?_, ?_⟩
  · intro V sip m key hB hN
    obtain ⟨o, ho⟩ := m.find_entry_total sip key hB hN
    refine ⟨⟨o.map Prod.snd, ?_⟩, ⟨(o.map Prod.snd).isSome, ?_⟩, ?_⟩
    · unfold Old.PhfMap.find
      rw [ho]
      rfl
    · unfold Old.PhfMap.contains_key Old.PhfMap.find
      rw [ho]
      rfl
    · intro habs
      have := m.find_entry_absent sip key hB hN habs
      unfold Old.PhfMap.find
      rw [this]
      rfl
  · intro K V T phfHash check m key hB hN
    exact m.get_entry_total phfHash key check hB hN
  · intro V m
    exact Old.PhfMapEntries.toList_eq_entries _

/-- Claim C3 witness: totality instantiated at a concrete nonempty table
and a key it does not contain. -/
theorem c3_queries_total_witness :
    ((∃ o, (Old.PhfMap.mk 0 0 [(0, 0), (0, 1)]
        [("bb", 10), ("a", 11)]).find sipLen "zz" = .ok o) ∧
     (∃ b, (Old.PhfMap.mk 0 0 [(0, 0), (0, 1)]
        [("bb", 10), ("a", 11)]).contains_key sipLen "zz" = .ok b) ∧
     ((∀ e ∈ (Old.PhfMap.mk 0 0 [(0, 0), (0, 1)]
          [("bb", 10), ("a", 11)]).entries, e.1 ≠ "zz") →
        (Old.PhfMap.mk 0 0 [(0, 0), (0, 1)]
          [("bb", 10), ("a", 11)]).find sipLen "zz" = .ok none)) ∧
    (∃ o, (New.PhfMap.mk 0 [(0, 0), (0, 1)]
        [("bb", 10), ("a", 11)]).get_entry hashLen "zz"
          (fun k => decide ((("zz" : String)) = k)) = .ok o) :=
  ⟨c3_queries_total.1 Nat sipLen _ "zz" (by decide) (by decide),
   c3_queries_total.2.1 String Nat String hashLen _ _ "zz"
     (by decide) (by decide)⟩

/-- Claim C9 counterexample: the zero-entry table satisfies the placement
invariant vacuously and stores no key equal to "q", yet find_key panics
with a remainder-by-zero instead of returning None. -/
theorem c9_find_key_counterexample :
    (Old.PhfMap.mk 0 0 [] ([] : List (String × Nat))).Placed sipLen ∧
    (∀ e ∈ (Old.PhfMap.mk 0 0 [] ([] : List (String × Nat))).entries,
       e.1 ≠ "q") ∧
    (Old.PhfMap.mk 0 0 [] ([] : List (String × Nat))).find_key sipLen "q" =
      .error .divByZero := by
  refine ⟨by decide, by simp, by decide⟩

/-- Claim C9 as amended: for every table satisfying the placement
invariant, find_key on a key equal to some stored key returns Some of the
key held in the entries array at the found position (which equals the
query key), suitable for interning; and on a key equal to no stored key
it returns None, provided the table holds at least one entry. -/
theorem c9_find_key :
    (∀ (V : Type) (sip : String → Nat → Nat → Nat) (m : Old.PhfMap V)
       (i : Fin m.entries.length),
       m.Placed sip →
       m.find_key sip (m.entries.get i).1 = .ok (some (m.entries.get i).1)) ∧
    (∀ (V : Type) (sip : String → Nat → Nat → Nat) (m : Old.PhfMap V)
       (key : String),
       m.Placed sip → 0 < m.entries.length →
       (∀ e ∈ m.entries, e.1 ≠ key) →
       m.find_key sip key = .ok none) ∧
    (∀ (K V : Type) [DecidableEq K] (phfHash : K → Nat → Nat × Nat × Nat)
       (m : New.PhfMap K V) (i : Fin m.entries.length),
       m.Placed phfHash →
       m.find_key phfHash (m.entries.get i).1 =
         .ok (some (m.entries.get i).1)) ∧
    (∀ (K V : Type) [DecidableEq K] (phfHash : K → Nat → Nat × Nat × Nat)
       (m : New.PhfMap K V) (key : K),
       m.Placed phfHash → 0 < m.entries.length →
       (∀ e ∈ m.entries, e.1 ≠ key) →
       m.find_key phfHash key = .ok none) := by
  refine ⟨?_, ?_, ?_, ?_⟩
  · intro V sip m i hp
    have hfe := m.placed_find_entry sip hp i
    unfold Old.PhfMap.find_key
    rw [hfe]
    rfl
  · intro V sip m key hp hN habs
    have hfe := m.find_entry_absent sip key
      (m.placed_disps_pos sip hp hN) hN habs
    unfold Old.PhfMap.find_key
    rw [hfe]
    rfl
  · intro K V inst phfHash m i hp
    exact m.placed_find_key phfHash hp i
  · intro K V inst phfHash m key hp hN habs
    obtain ⟨hB, hE⟩ := m.placed_guards phfHash hp hN
    exact m.find_key_absent phfHash key hB hE habs

/-- Claim C9 witness: find_key instantiated at a concrete table for a
present and an absent key. -/
theorem c9_find_key_witness :
    (Old.PhfMap.mk 0 0 [(0, 0), (0, 1)]
        [("bb", 10), ("a", 11)]).find_key sipLen "bb" = .ok (some "bb") ∧
    (Old.PhfMap.mk 0 0 [(0, 0), (0, 1)]
        [("bb", 10), ("a", 11)]).find_key sipLen "qqq" = .ok none ∧
    (New.PhfMap.mk 0 [(0, 0), (0, 1)]
        [("bb", 10), ("a", 11)]).find_key hashLen "bb" = .ok (some "bb") ∧
    (New.PhfMap.mk 0 [(0, 0), (0, 1)]
        [("bb", 10), ("a", 11)]).find_key hashLen "qqq" = .ok none :=
  ⟨c9_find_key.1 Nat sipLen _ ⟨0, by decide⟩ (by decide),
   c9_find_key.2.1 Nat sipLen _ "qqq" (by decide) (by decide) (by decide),
   c9_find_key.2.2.1 String Nat hashLen _ ⟨0, by decide⟩ (by decide),
   c9_find_key.2.2.2 String Nat hashLen _ "qqq"
     (by decide) (by decide) (by decide)⟩

/-- Claim C4 counterexample: the indexed accessor does not return the
stored value for every map and present key — on a map whose displacement
data misdirects the lookup, a present key is reported as InvalidKey; and
on the zero-entry map the failure on an absent key is the
remainder-by-zero panic, not InvalidKey, so InvalidKey is not the only
query-time failure. -/
theorem c4_index_counterexample :
    ("b", 20) ∈ (New.PhfMap.mk 0 [(0, 0)]
        [("a", 10), ("b", 20)]).entries ∧
    (New.PhfMap.mk 0 [(0, 0)]
        [("a", 10), ("b", 20)]).index hashLen "b" = .error .invalidKey ∧
    (New.PhfMap.mk 0 [] ([] : List (String × Nat))).index hashLen "b" =
      .error .divByZero := by
  refine ⟨by decide, by decide, by decide⟩

/-- Claim C4 as amended: for every map that satisfies the placement
invariant, the indexed accessor returns Ok of the stored value on every
present key; and on an absent key — provided the arrays on the lookup path
are nonempty (lengths not casting to zero in u32, idxs in bounds for the
ordered variant) — it signals the reportable InvalidKey error and no other
failure.  Stated for both Index implementations of the generic library
generation. -/
theorem c4_index_subscript :
    (∀ (K V : Type) [DecidableEq K] (phfHash : K → Nat → Nat × Nat × Nat)
       (m : New.PhfMap K V),
       (∀ i : Fin m.entries.length, m.Placed phfHash →
          m.index phfHash (m.entries.get i).1 = .ok (m.entries.get i).2) ∧
       (∀ k : K, m.disps.length % 2 ^ 32 ≠ 0 →
          m.entries.length % 2 ^ 32 ≠ 0 →
          (∀ e ∈ m.entries, e.1 ≠ k) →
          m.index phfHash k = .error .invalidKey)) ∧
    (∀ (K V : Type) [DecidableEq K] (phfHash : K → Nat → Nat × Nat × Nat)
       (m : New.PhfOrderedMap K V),
       (∀ i : Fin m.entries.length, m.Placed phfHash →
          m.index phfHash (m.entries.get i).1 = .ok (m.entries.get i).2) ∧
       (∀ k : K, m.disps.length % 2 ^ 32 ≠ 0 →
          m.idxs.length % 2 ^ 32 ≠ 0 →
          (∀ x ∈ m.idxs, x < m.entries.length) →
          (∀ e ∈ m.entries, e.1 ≠ k) →
          m.index phfHash k = .error .invalidKey)) := by
  refine ⟨?_, ?_⟩
  · intro K V inst phfHash m
    exact ⟨fun i hp => m.index_present phfHash hp i,
           fun k hB hN habs => m.index_absent phfHash k hB hN habs⟩
  · intro K V inst phfHash m
    exact ⟨fun i hp => m.index_present_gord phfHash hp i,
           fun k hB hI hbd habs => m.index_absent_gord phfHash k hB hI hbd habs⟩

/-- Claim C4 witness: the indexed accessor instantiated at concrete plain
and ordered generic maps for a present and an absent key. -/
theorem c4_index_subscript_witness :
    (New.PhfMap.mk 0 [(0, 0), (0, 1)]
        [("bb", 10), ("a", 11)]).index hashLen "a" = .ok 11 ∧
    (New.PhfMap.mk 0 [(0, 0), (0, 1)]
        [("bb", 10), ("a", 11)]).index hashLen "qqq" = .error .invalidKey ∧
    (New.PhfOrderedMap.mk 0 [(0, 0), (0, 1)] [1, 0]
        [("a", 1), ("bb", 2)]).index hashLen "a" = .ok 1 ∧
    (New.PhfOrderedMap.mk 0 [(0, 0), (0, 1)] [1, 0]
        [("a", 1), ("bb", 2)]).index hashLen "qqq" = .error .invalidKey :=
  ⟨((c4_index_subscript.1 String Nat hashLen _).1 ⟨1, by decide⟩ (by decide)),
   ((c4_index_subscript.1 String Nat hashLen _).2 "qqq"
     (by decide) (by decide) (by decide)),
   ((c4_index_subscript.2 String Nat hashLen _).1 ⟨0, by decide⟩ (by decide)),
   ((c4_index_subscript.2 String Nat hashLen _).2 "qqq"
     (by decide) (by decide) (by decide) (by decide))⟩

/-- Claim C2 counterexample: a lookup of an absent key does not return None
on every table — on the zero-entry ordered table it panics with a
remainder by zero, and on an ordered table whose idxs entry points outside
entries it panics with an out-of-bounds index. -/
theorem c2_negative_counterexample :
    (Old.PhfOrderedMap.mk 0 0 [] [] ([] : List (String × Nat))).find
        sipLen "z" = .error .divByZero ∧
    (Old.PhfOrderedMap.mk 0 0 [(0, 0)] [5] [("a", 1)]).find sipLen "z" =
      .error .indexOutOfBounds := by
  refine ⟨by decide, by decide⟩

/-- Claim C2 as amended: for every table whose lookup path is well-formed —
nonempty disps and entries arrays (lengths not casting to zero in u32 for
the generic generation), and for ordered variants a nonempty idxs array
whose values lie inside entries — a query key equal to no stored key makes
find return None; and unconditionally, whenever the lookup returns Some,
the returned entry is a stored entry whose key equals the query key, so a
lookup never returns a wrong value. -/
theorem c2_negative_lookup :
    (∀ (K V : Type) [DecidableEq K] (phfHash : K → Nat → Nat × Nat × Nat)
       (m : New.PhfMap K V) (key : K),
       m.disps.length % 2 ^ 32 ≠ 0 → m.entries.length % 2 ^ 32 ≠ 0 →
       (∀ e ∈ m.entries, e.1 ≠ key) →
       m.find phfHash key = .ok none) ∧
    (∀ (K V : Type) [DecidableEq K] (phfHash : K → Nat → Nat × Nat × Nat)
       (m : New.PhfMap K V) (key : K) (e : K × V),
       m.get_entry phfHash key (fun k => decide (key = k)) = .ok (some e) →
       e.1 = key ∧ e ∈ m.entries) ∧
    (∀ (V : Type) (sip : String → Nat → Nat → Nat)
       (m : Old.PhfOrderedMap V) (key : String),
       0 < m.disps.length → 0 < m.idxs.length →
       (∀ x ∈ m.idxs, x < m.entries.length) →
       (∀ e ∈ m.entries, e.1 ≠ key) →
       m.find sip key = .ok none) ∧
    (∀ (V : Type) (sip : String → Nat → Nat → Nat)
       (m : Old.PhfOrderedMap V) (key : String) (e : String × V),
       m.find_entry sip key = .ok (some e) →
       e.1 = key ∧ e ∈ m.entries) := by
  refine ⟨?_, ?_, ?_, ?_⟩
  · intro K V inst phfHash m key hB hN habs
    exact m.find_absent phfHash key hB hN habs
  · intro K V inst phfHash m key e hfe
    obtain ⟨hc, hmem⟩ := m.get_entry_some phfHash key _ e hfe
    exact ⟨(of_decide_eq_true hc).symm, hmem⟩
  · intro V sip m key hB hI hbd habs
    have hfe := m.find_entry_absent_ord sip key hB hI hbd habs
    unfold Old.PhfOrderedMap.find
    rw [hfe]
    rfl
  · intro V sip m key e hfe
    exact m.find_entry_some_ord sip key e hfe

/-- Claim C2 witness: the negative-lookup theorem instantiated at concrete
tables and keys. -/
theorem c2_negative_lookup_witness :
    (New.PhfMap.mk 0 [(0, 0), (0, 1)]
        [("bb", 10), ("a", 11)]).find hashLen "zz" = .ok none ∧
    ((New.PhfMap.mk 0 [(0, 0)] [("a", 10)]).get_entry hashLen "a"
        (fun k => decide ((("a" : String)) = k)) = .ok (some ("a", 10)) →
      (("a", 10) : String × Nat).1 = "a" ∧
        ("a", 10) ∈ (New.PhfMap.mk 0 [(0, 0)] [("a", 10)]).entries) ∧
    (Old.PhfOrderedMap.mk 0 0 [(0, 0), (0, 1)] [1, 0]
        [("a", 1), ("bb", 2)]).find sipLen "zz" = .ok none :=
  ⟨c2_negative_lookup.1 String Nat hashLen _ "zz"
     (by decide) (by decide) (by decide),
   c2_negative_lookup.2.1 String Nat hashLen _ "a" ("a", 10),
   c2_negative_lookup.2.2.1 Nat sipLen _ "zz"
     (by decide) (by decide) (by decide) (by decide)⟩

/-- Claim C8: for sets of the same variant, each satisfying the placement
invariant with a nonempty table so that membership tests are correct and
total, is_disjoint holds exactly when no element of one set equals an
element of the other, and is_subset holds exactly when every element of
the first equals some element of the second — agreeing with a brute-force
double loop over the two key lists.  Stated for the set types of both
library generations. -/
theorem c8_set_algebra :
    (∀ (sip : String → Nat → Nat → Nat) (a b : Old.PhfSet),
       a.map.Placed sip → b.map.Placed sip →
       0 < a.map.entries.length → 0 < b.map.entries.length →
       (a.is_disjoint sip b = .ok true ↔ ∀ k ∈ a.iterKeys, k ∉ b.iterKeys) ∧
       (a.is_subset sip b = .ok true ↔ ∀ k ∈ a.iterKeys, k ∈ b.iterKeys)) ∧
    (∀ (T : Type) [DecidableEq T] (phfHash : T → Nat → Nat × Nat × Nat)
       (a b : New.PhfSet T),
       a.map.Placed phfHash → b.map.Placed phfHash →
       0 < a.map.entries.length → 0 < b.map.entries.length →
       (a.is_disjoint phfHash b = .ok true ↔
          ∀ k ∈ a.iterKeys, k ∉ b.iterKeys) ∧
       (a.is_subset phfHash b = .ok true ↔
          ∀ k ∈ a.iterKeys, k ∈ b.iterKeys)) := by
  refine ⟨?_, ?_⟩
  · intro sip a b hpa hpb hNa hNb
    have hcont : ∀ k ∈ a.iterKeys, b.contains sip k =
        .ok (decide (k ∈ b.iterKeys)) :=
      fun k _ => b.map.contains_key_eq sip hpb hNb k
    constructor
    · unfold Old.PhfSet.is_disjoint
      rw [anyExc_ok _ (fun k => decide (k ∈ b.iterKeys)) _ hcont]
      simp [Except.map, List.any_eq_false]
    · unfold Old.PhfSet.is_subset
      rw [allExc_ok _ (fun k => decide (k ∈ b.iterKeys)) _ hcont]
      simp [List.all_eq_true]
  · intro T inst phfHash a b hpa hpb hNa hNb
    have hcont : ∀ k ∈ a.iterKeys, b.contains phfHash k =
        .ok (decide (k ∈ b.iterKeys)) :=
      fun k _ => b.map.contains_key_eq_gen phfHash hpb hNb k
    constructor
    · unfold New.PhfSet.is_disjoint
      rw [anyExc_ok _ (fun k => decide (k ∈ b.iterKeys)) _ hcont]
      simp [Except.map, List.any_eq_false]
    · unfold New.PhfSet.is_subset
      rw [allExc_ok _ (fun k => decide (k ∈ b.iterKeys)) _ hcont]
      simp [List.all_eq_true]

/-- Claim C8 witness: the set-algebra theorem instantiated at concrete
disjoint sets of both generations. -/
theorem c8_set_algebra_witness :
    ((Old.PhfSet.mk (Old.PhfMap.mk 0 0 [(0, 0), (0, 1)]
          [("bb", ()), ("a", ())])).is_disjoint sipLen
        (Old.PhfSet.mk (Old.PhfMap.mk 0 0 [(0, 0), (0, 1)]
          [("cc", ()), ("d", ())])) = .ok true ↔
      ∀ k ∈ (Old.PhfSet.mk (Old.PhfMap.mk 0 0 [(0, 0), (0, 1)]
          [("bb", ()), ("a", ())])).iterKeys,
        k ∉ (Old.PhfSet.mk (Old.PhfMap.mk 0 0 [(0, 0), (0, 1)]
          [("cc", ()), ("d", ())])).iterKeys) ∧
    ((New.PhfSet.mk (New.PhfMap.mk 0 [(0, 0), (0, 1)]
          [("bb", ()), ("a", ())])).is_subset hashLen
        (New.PhfSet.mk (New.PhfMap.mk 0 [(0, 0), (0, 1)]
          [("cc", ()), ("d", ())])) = .ok true ↔
      ∀ k ∈ (New.PhfSet.mk (New.PhfMap.mk 0 [(0, 0), (0, 1)]
          [("bb", ()), ("a", ())])).iterKeys,
        k ∈ (New.PhfSet.mk (New.PhfMap.mk 0 [(0, 0), (0, 1)]
          [("cc", ()), ("d", ())])).iterKeys) :=
  ⟨(c8_set_algebra.1 sipLen _ _
      (by decide) (by decide) (by decide) (by decide)).1,
   (c8_set_algebra.2 String hashLen _ _
      (by decide) (by decide) (by decide) (by decide)).2⟩
